import Mathlib

/-!
# Verification of `find_purchase_cooccurrences.py`

A shallow embedding of the frequent-itemset miner in
`src/find_purchase_cooccurrences.py`, together with proofs of the
specification's testable properties.

Embedding conventions:
* A Python `frozenset` of items is represented by its canonical form, the
  strictly increasing list of its elements (`Itemset`).
* A Python `dict` is represented by an insertion-ordered association list;
  `d[k] = v` on a fresh key appends, on an existing key updates in place,
  and `del` is a filter.  Python compares dicts extensionally, so "equal
  tables" below always means pointwise-equal lookups.
* Python `int`s that are list lengths, purchase indices or set sizes are
  `Nat`.  The support threshold `SIGMA` is a `Nat` parameter `sigma`
  (a negative Python sigma behaves identically to `0`: `len < sigma` is
  then always false).
* `max()` of an empty sequence raises `ValueError`; the driver is therefore
  embedded with an `Option` result, `none` meaning the uncaught exception.
-/

set_option maxHeartbeats 1000000

namespace Cooccur

/-- Canonical form of a `frozenset` of items: strictly increasing element list. -/
abbrev Itemset := List ℕ

/-- `dict(frozenset -> list(int))`: itemset keys to lists of purchase indices. -/
abbrev SupportIndex := List (Itemset × List ℕ)

/-- `dict(int -> dict(frozenset -> list(int)))`: the `subsets_indices` structure. -/
abbrev SubsetsIndices := List (ℕ × SupportIndex)

/-- Dict lookup on a `SupportIndex` (first entry with the given key). -/
def lookupKey : SupportIndex → Itemset → Option (List ℕ)
  | [], _ => none
  | e :: d, s => if e.1 = s then some e.2 else lookupKey d s

/-- Python `key in dict` on a `SupportIndex`. -/
def hasKey (d : SupportIndex) (s : Itemset) : Bool := (lookupKey d s).isSome

/-- `d[s].append(t)`: append `t` to the membership list of key `s` (in place). -/
def appendAt (d : SupportIndex) (s : Itemset) (t : ℕ) : SupportIndex :=
  d.map fun e => if e.1 = s then (e.1, e.2 ++ [t]) else e

/-- Dict lookup on the outer size-indexed dict. -/
def lookupLevel : SubsetsIndices → ℕ → Option SupportIndex
  | [], _ => none
  | e :: si, k => if e.1 = k then some e.2 else lookupLevel si k

/-- `subsets_indices[k]` where the engine guarantees the key exists;
a missing level reads as the empty dict (unreachable in engine states). -/
def levelD (si : SubsetsIndices) (k : ℕ) : SupportIndex := (lookupLevel si k).getD []

/-- `subsets_indices[k] = d`: update in place, or append a fresh key. -/
def setLevel (si : SubsetsIndices) (k : ℕ) (d : SupportIndex) : SubsetsIndices :=
  if (lookupLevel si k).isSome then si.map fun e => if e.1 = k then (k, d) else e
  else si ++ [(k, d)]

/-- `max(subsets_indices.keys())` (the engine only applies it to nonempty dicts). -/
def maxKey (si : SubsetsIndices) : ℕ := si.foldr (fun e m => max e.1 m) 0

/-- `set(subset); .add(item); frozenset(...)`: ordered insertion keeping the
canonical (strictly sorted) form. -/
def insertItem (item : ℕ) : List ℕ → List ℕ
  | [] => [item]
  | x :: xs =>
    if item < x then item :: x :: xs
    else if item = x then x :: xs
    else x :: insertItem item xs

/-! ## `count_size_one_subsets` (lines 64-95) -/

/-- Body of the inner loop of `count_size_one_subsets`: record `idx` under the
singleton key `frozenset([item])`. -/
def addItemAt (idx : ℕ) (d : SupportIndex) (item : ℕ) : SupportIndex :=
  if hasKey d [item] then appendAt d [item] idx else d ++ [([item], [idx])]

/-- The loop over one purchase in `count_size_one_subsets`. -/
def addPurchase (idx : ℕ) (d : SupportIndex) (purchase : List ℕ) : SupportIndex :=
  purchase.foldl (addItemAt idx) d

/-- The loop `for purchase_idx in range(len(all_purchases))`. -/
def seedFrom : SupportIndex → ℕ → List (List ℕ) → SupportIndex
  | d, _, [] => d
  | d, idx, p :: ps => seedFrom (addPurchase idx d p) (idx + 1) ps

/-- `count_size_one_subsets(all_purchases)`. -/
def count_size_one_subsets (all_purchases : List (List ℕ)) : SubsetsIndices :=
  [(1, seedFrom [] 0 all_purchases)]

/-! ## `count_subsets_of_size` (lines 97-204) -/

/-- Lines 180-197: the bounded subset verification.  `max_combo_size` is the
already-computed `min(MAX_COMBO_SIZE, subset_size)`; the loop is
`for combo_size in range(2, max_combo_size)` over `combinations(superset, combo_size)`,
with `List.all` short-circuiting at the first absent subset exactly as the
`break`s do. -/
def superset_potentially_good (si : SubsetsIndices) (superset : Itemset)
    (max_combo_size : ℕ) : Bool :=
  (List.range' 2 (max_combo_size - 2)).all fun combo_size =>
    (List.sublistsLen combo_size superset).all fun sub => hasKey (levelD si combo_size) sub

/-- Lines 141-202: the body of `for item in current_purchase`.  `cur` is the
dict being built at level `k` (`subsets_indices[subset_size]`); all other
levels are read from `si`, which is not mutated during the level's
construction.  At lines 199-202 the key is known absent (line 159 checked and
continued), so admission appends a fresh entry. -/
def processItem (si : SubsetsIndices) (mcs k : ℕ) (subset : Itemset) (purchase_idx : ℕ)
    (cur : SupportIndex) (item : ℕ) : SupportIndex :=
  if item ∈ subset then cur
  else if ¬ hasKey (levelD si 1) [item] then cur
  else
    let superset := insertItem item subset
    match lookupKey cur superset with
    | some l => if purchase_idx ∈ l then cur else appendAt cur superset purchase_idx
    | none =>
      if superset_potentially_good si superset (min mcs k) then
        cur ++ [(superset, [purchase_idx])]
      else cur

/-- Lines 137-202: the loop over one purchase of a membership list
(`current_purchase = all_purchases[purchase_idx]`; always in range in engine
states). -/
def processPurchase (purchases : List (List ℕ)) (si : SubsetsIndices) (mcs k : ℕ)
    (subset : Itemset) (cur : SupportIndex) (purchase_idx : ℕ) : SupportIndex :=
  (purchases.getD purchase_idx []).foldl (processItem si mcs k subset purchase_idx) cur

/-- Lines 133-202: the loop over one entry of the size-(k-1) dict. -/
def processEntry (purchases : List (List ℕ)) (si : SubsetsIndices) (mcs k : ℕ)
    (cur : SupportIndex) (entry : Itemset × List ℕ) : SupportIndex :=
  entry.2.foldl (processPurchase purchases si mcs k entry.1) cur

/-- `count_subsets_of_size(all_purchases, subset_size, subsets_indices)` with the
global `MAX_COMBO_SIZE` passed explicitly as `mcs`.  Line 127 initialises
`subsets_indices[subset_size] = {}`; since no read of level `k` other than the
accumulator occurs, this equals installing the finished dict at the end. -/
def count_subsets_of_size (purchases : List (List ℕ)) (mcs k : ℕ)
    (si : SubsetsIndices) : SubsetsIndices :=
  setLevel si k ((levelD si (k - 1)).foldl (processEntry purchases si mcs k) [])

/-! ## `prune_subsets` (lines 206-221), with the global `SIGMA` as `sigma` -/

/-- `prune_subsets(subsets_indices)`: delete, at the current maximum size, every
itemset whose membership list is shorter than `sigma`. -/
def prune_subsets (sigma : ℕ) (si : SubsetsIndices) : SubsetsIndices :=
  si.map fun lv =>
    if lv.1 = maxKey si then (lv.1, lv.2.filter fun e => !decide (e.2.length < sigma))
    else lv

/-! ## The driver (`__main__`, lines 293-352) -/

/-- Line 294: `max([len(purchase) for purchase in all_purchases])`.
Python's `max` raises `ValueError` on an empty sequence: `none`. -/
def max_purchase_size (all_purchases : List (List ℕ)) : Option ℕ :=
  match all_purchases.map List.length with
  | [] => none
  | x :: xs => some (xs.foldl max x)

/-- Lines 334-352: `for subset_size in range(2, max_purchase_size)`, with the
`break` when the freshly pruned level is empty. -/
def runLevels (purchases : List (List ℕ)) (mcs sigma : ℕ) :
    List ℕ → SubsetsIndices → SubsetsIndices
  | [], si => si
  | k :: ks, si =>
    let si' := prune_subsets sigma (count_subsets_of_size purchases mcs k si)
    if (levelD si' k).length = 0 then si' else runLevels purchases mcs sigma ks si'

/-- Lines 293-352: one full engine run (parse output as input; the
benchmarking shell around it is out of scope).  `none` is the uncaught
`ValueError` from line 294 on an empty transaction sequence. -/
def run_engine (purchases : List (List ℕ)) (mcs sigma : ℕ) : Option SubsetsIndices :=
  match max_purchase_size purchases with
  | none => none
  | some m =>
    some (runLevels purchases mcs sigma (List.range' 2 (m - 2))
      (prune_subsets sigma (count_size_one_subsets purchases)))

/-- The sequence of tables the engine passes through: after seeding, after each
`count_subsets_of_size` and after each `prune_subsets` (used to state the
per-state invariants). -/
def runLevelsTrace (purchases : List (List ℕ)) (mcs sigma : ℕ) :
    List ℕ → SubsetsIndices → List SubsetsIndices
  | [], _ => []
  | k :: ks, si =>
    let e := count_subsets_of_size purchases mcs k si
    let p := prune_subsets sigma e
    e :: p :: (if (levelD p k).length = 0 then [] else runLevelsTrace purchases mcs sigma ks p)

/-- All intermediate engine states of a run. -/
def engineStates (purchases : List (List ℕ)) (mcs sigma : ℕ) : List SubsetsIndices :=
  match max_purchase_size purchases with
  | none => []
  | some m =>
    let s0 := count_size_one_subsets purchases
    let s1 := prune_subsets sigma s0
    s0 :: s1 :: runLevelsTrace purchases mcs sigma (List.range' 2 (m - 2)) s1

/-! ## Specification-side observers -/

/-- The true membership list of an itemset: all transaction indices whose
transaction contains it, in increasing order. -/
def occList (purchases : List (List ℕ)) (S : Itemset) : List ℕ :=
  (List.range purchases.length).filter fun t => decide (S ⊆ purchases.getD t [])

/-- Brute-force containment count of an itemset over the whole transaction list. -/
def trueCount (purchases : List (List ℕ)) (S : Itemset) : ℕ :=
  (occList purchases S).length

/-- Canonical-form predicate for itemset keys. -/
def canonicalSet (S : Itemset) : Prop := List.Chain' (· < ·) S

/-- The key list of a support index. -/
def keys (d : SupportIndex) : List Itemset := d.map Prod.fst

/-- The size keys of the outer dict. -/
def sizeKeys (si : SubsetsIndices) : List ℕ := si.map Prod.fst

/-- Append the elements of `ts` not already present, in order (the effect of
repeated `if t not in l: l.append(t)`). -/
def appendNew (l : List ℕ) (ts : List ℕ) : List ℕ :=
  ts.foldl (fun l t => if t ∈ l then l else l ++ [t]) l

/-- The effect on one candidate's stored membership list of processing it at
transaction `pidx`: append (deduplicated) when an entry exists, create the
entry when the verification verdict allowed admission. -/
def stepT (verdict : Bool) (pidx : ℕ) : Option (List ℕ) → Option (List ℕ)
  | some l => some (if pidx ∈ l then l else l ++ [pidx])
  | none => if verdict then some [pidx] else none

/-- Propositional reading of the bounded subset verification: every subset of
every size `c` with `2 ≤ c < mc` is a key of the table at size `c`. -/
def subsetsChecked (si : SubsetsIndices) (superset : Itemset) (mc : ℕ) : Prop :=
  ∀ c, 2 ≤ c → c < mc → ∀ T, List.Sublist T superset → T.length = c →
    hasKey (levelD si c) T = true

/-- A pruned support index at size `j` is *good* when its keys are exactly the
canonical size-`j` itemsets whose brute-force count reaches `max sigma 1`, and
every recorded membership list is the exact one.  This is the central
invariant of the level-wise search. -/
def goodLevel (purchases : List (List ℕ)) (sp j : ℕ) (d : SupportIndex) : Prop :=
  (keys d).Nodup ∧
  (∀ S l, lookupKey d S = some l →
    l = occList purchases S ∧ List.Sorted (· < ·) S ∧ S.length = j ∧ sp ≤ l.length) ∧
  (∀ S, List.Sorted (· < ·) S → S.length = j → sp ≤ trueCount purchases S →
    (lookupKey d S).isSome)

/-- A whole table is good up to level `L`: its size keys are exactly
`1, …, L` and every level is good. -/
def goodTable (purchases : List (List ℕ)) (sigma L : ℕ) (si : SubsetsIndices) : Prop :=
  sizeKeys si = List.range' 1 L ∧
  ∀ j d, lookupLevel si j = some d → goodLevel purchases (max sigma 1) j d

/-- Extensional equality of two tables, i.e. Python `dict` equality of
`subsets_indices` structures: same sizes present, and at each size the same
itemset-to-membership-list mapping. -/
def sameTables (a b : SubsetsIndices) : Prop :=
  (∀ k, (lookupLevel a k).isSome ↔ (lookupLevel b k).isSome) ∧
  (∀ k S, (lookupLevel a k).bind (fun d => lookupKey d S) =
    (lookupLevel b k).bind (fun d => lookupKey d S))

/-- `S` extends the known itemset `S'` by one frequent item: there is an item
`i` of `S` outside `S'`, whose singleton is a key of the pruned size-1 table,
with `S = S' ∪ {i}`. -/
def extWitness (si : SubsetsIndices) (S' S : Itemset) : Prop :=
  ∃ i ∈ S, i ∉ S' ∧ hasKey (levelD si 1) [i] = true ∧ S = insertItem i S'

instance (si : SubsetsIndices) (S' S : Itemset) : Decidable (extWitness si S' S) :=
  List.decidableBEx _ S

/-- `S` is generated from `S'` during the level's construction: it extends
`S'` by a frequent item and occurs in at least one transaction. -/
def admits (purchases : List (List ℕ)) (si : SubsetsIndices) (S' S : Itemset) : Prop :=
  extWitness si S' S ∧ occList purchases S ≠ []

instance (purchases : List (List ℕ)) (si : SubsetsIndices) (S' S : Itemset) :
    Decidable (admits purchases si S' S) :=
  instDecidableAnd

/-- `S` is generated from some entry of the given (size-(k-1)) entry list. -/
def genFrom (purchases : List (List ℕ)) (si : SubsetsIndices)
    (es : List (Itemset × List ℕ)) (S : Itemset) : Prop :=
  ∃ e ∈ es, admits purchases si e.1 S

instance (purchases : List (List ℕ)) (si : SubsetsIndices)
    (es : List (Itemset × List ℕ)) (S : Itemset) :
    Decidable (genFrom purchases si es S) :=
  List.decidableBEx _ es

/-- Size `j` still has a frequent itemset (threshold `sp`). -/
def freqAt (purchases : List (List ℕ)) (sp j : ℕ) : Prop :=
  ∃ S : Itemset, List.Sorted (· < ·) S ∧ S.length = j ∧ sp ≤ trueCount purchases S

/-! ## Association-list dictionary lemmas -/

theorem lookupKey_append_single (d : SupportIndex) (s₀ : Itemset) (l₀ : List ℕ)
    (s : Itemset) :
    lookupKey (d ++ [(s₀, l₀)]) s =
      match lookupKey d s with
      | some l => some l
      | none => if s₀ = s then some l₀ else none := by
  induction d with
  | nil => simp [lookupKey]
  | cons e d ih =>
    by_cases h : e.1 = s <;> simp [lookupKey, h, ih]

theorem lookupKey_appendAt (d : SupportIndex) (s₀ : Itemset) (t : ℕ) (s : Itemset) :
    lookupKey (appendAt d s₀ t) s =
      if s = s₀ then (lookupKey d s).map (fun l => l ++ [t]) else lookupKey d s := by
  induction d with
  | nil => simp [lookupKey, appendAt]
  | cons e d ih =>
    simp only [appendAt, List.map_cons] at *
    by_cases h₀ : e.1 = s₀
    · by_cases h : s = s₀
      · subst h; simp [lookupKey, h₀, ih]
      · have h₁ : ¬ e.1 = s := by rw [h₀]; exact fun hc => h hc.symm
        have h₂ : ¬ s₀ = s := fun hc => h hc.symm
        simp [lookupKey, h₀, h₁, h₂, ih, h]
    · by_cases h : e.1 = s
      · have hns : ¬ s = s₀ := by rw [← h]; exact fun hc => h₀ hc
        simp [lookupKey, h₀, h, hns]
      · simp [lookupKey, h₀, h, ih]

theorem mem_keys_iff_lookup (d : SupportIndex) (s : Itemset) :
    s ∈ keys d ↔ (lookupKey d s).isSome := by
  induction d with
  | nil => simp [keys, lookupKey]
  | cons e d ih =>
    by_cases h : e.1 = s
    · simp [keys, lookupKey, h]
    · have h' : ¬ s = e.1 := fun hc => h hc.symm
      simp only [keys, List.map_cons, List.mem_cons] at *
      simp [lookupKey, h, h', ih]

theorem lookupKey_eq_none_of_not_mem {d : SupportIndex} {s : Itemset}
    (h : s ∉ keys d) : lookupKey d s = none := by
  have := (mem_keys_iff_lookup d s).not.mp h
  cases hl : lookupKey d s with
  | none => rfl
  | some l => rw [hl] at this; simp at this

theorem keys_appendAt (d : SupportIndex) (s₀ : Itemset) (t : ℕ) :
    keys (appendAt d s₀ t) = keys d := by
  induction d with
  | nil => rfl
  | cons e d ih =>
    by_cases h : e.1 = s₀ <;> simp [appendAt, keys, h] at * <;> simpa [keys] using ih

theorem keys_append_single (d : SupportIndex) (s₀ : Itemset) (l₀ : List ℕ) :
    keys (d ++ [(s₀, l₀)]) = keys d ++ [s₀] := by
  simp [keys]

theorem lookupKey_filter {d : SupportIndex} (hn : (keys d).Nodup)
    (p : Itemset × List ℕ → Bool) (s : Itemset) :
    lookupKey (d.filter p) s =
      match lookupKey d s with
      | some l => if p (s, l) then some l else none
      | none => none := by
  induction d with
  | nil => simp [lookupKey]
  | cons e d ih =>
    simp only [keys, List.map_cons, List.nodup_cons] at hn
    obtain ⟨he, hd⟩ := hn
    have ih := ih hd
    by_cases h : e.1 = s
    · have hnone : lookupKey d s = none := by
        apply lookupKey_eq_none_of_not_mem
        rw [← h]; exact he
      obtain ⟨e1, e2⟩ := e
      simp only at h
      subst h
      by_cases hp : p (e1, e2) <;> simp [lookupKey, hp, hnone, ih, List.filter_cons]
    · by_cases hp : p e <;> simp [lookupKey, h, hp, ih, List.filter_cons]

theorem keys_filter_sublist (d : SupportIndex) (p : Itemset × List ℕ → Bool) :
    List.Sublist (keys (d.filter p)) (keys d) := by
  simpa [keys] using (List.filter_sublist d).map Prod.fst

/-! ## Outer (size-indexed) dictionary lemmas -/

theorem lookupLevel_map_if (si : SubsetsIndices) (m : ℕ)
    (f : SupportIndex → SupportIndex) (j : ℕ) :
    lookupLevel (si.map fun lv => if lv.1 = m then (lv.1, f lv.2) else lv) j =
      (lookupLevel si j).map (fun d => if j = m then f d else d) := by
  induction si with
  | nil => simp [lookupLevel]
  | cons e si ih =>
    by_cases hm : e.1 = m
    · by_cases hj : e.1 = j
      · have : j = m := by rw [← hj, hm]
        simp [lookupLevel, hm, hj, this]
      · have hmj : ¬ m = j := by rw [← hm]; exact hj
        simp only [List.map_cons]
        simp [lookupLevel, hm, hj, hmj, ih]
    · by_cases hj : e.1 = j
      · have : ¬ j = m := by rw [← hj]; exact hm
        simp [lookupLevel, hm, hj, this]
      · simp only [List.map_cons]
        simp [lookupLevel, hm, hj, ih]

theorem lookupLevel_append_single (si : SubsetsIndices) (k : ℕ) (d : SupportIndex)
    (j : ℕ) :
    lookupLevel (si ++ [(k, d)]) j =
      match lookupLevel si j with
      | some l => some l
      | none => if k = j then some d else none := by
  induction si with
  | nil => simp [lookupLevel]
  | cons e si ih =>
    by_cases h : e.1 = j <;> simp [lookupLevel, h, ih]

theorem lookupLevel_setLevel (si : SubsetsIndices) (k : ℕ) (d : SupportIndex) (j : ℕ) :
    lookupLevel (setLevel si k d) j = if j = k then some d else lookupLevel si j := by
  by_cases hs : (lookupLevel si k).isSome
  · have hset : setLevel si k d = si.map fun e => if e.1 = k then (k, d) else e := by
      unfold setLevel; rw [if_pos hs]
    have hmap : (fun e : ℕ × SupportIndex => if e.1 = k then (k, d) else e) =
        (fun e : ℕ × SupportIndex => if e.1 = k then (e.1, (fun _ => d) e.2) else e) := by
      funext e
      by_cases h : e.1 = k <;> simp [h]
    rw [hset, hmap, lookupLevel_map_if si k (fun _ => d) j]
    by_cases hjk : j = k
    · subst hjk
      cases hl : lookupLevel si j with
      | none => rw [hl] at hs; simp at hs
      | some l => simp
    · cases hl : lookupLevel si j <;> simp [hjk]
  · have hnone : lookupLevel si k = none := by
      cases hl : lookupLevel si k with
      | none => rfl
      | some l => rw [hl] at hs; simp at hs
    have hset : setLevel si k d = si ++ [(k, d)] := by
      unfold setLevel; rw [if_neg hs]
    rw [hset, lookupLevel_append_single]
    by_cases hjk : j = k
    · subst hjk; simp [hnone]
    · have : ¬ k = j := fun hc => hjk hc.symm
      cases hl : lookupLevel si j <;> simp [this, hjk]

theorem sizeKeys_setLevel_fresh (si : SubsetsIndices) (k : ℕ) (d : SupportIndex)
    (h : lookupLevel si k = none) : sizeKeys (setLevel si k d) = sizeKeys si ++ [k] := by
  unfold setLevel
  simp [h, sizeKeys]

theorem mem_sizeKeys_iff_lookup (si : SubsetsIndices) (k : ℕ) :
    k ∈ sizeKeys si ↔ (lookupLevel si k).isSome := by
  induction si with
  | nil => simp [sizeKeys, lookupLevel]
  | cons e si ih =>
    by_cases h : e.1 = k
    · simp [sizeKeys, lookupLevel, h]
    · have h' : ¬ k = e.1 := fun hc => h hc.symm
      simp only [sizeKeys, List.map_cons, List.mem_cons] at *
      simp [lookupLevel, h, h', ih]

theorem lookupLevel_eq_none_of_not_mem {si : SubsetsIndices} {k : ℕ}
    (h : k ∉ sizeKeys si) : lookupLevel si k = none := by
  have := (mem_sizeKeys_iff_lookup si k).not.mp h
  cases hl : lookupLevel si k with
  | none => rfl
  | some l => rw [hl] at this; simp at this

theorem lookupLevel_prune (sigma : ℕ) (si : SubsetsIndices) (j : ℕ) :
    lookupLevel (prune_subsets sigma si) j =
      (lookupLevel si j).map (fun d =>
        if j = maxKey si then d.filter (fun e => !decide (e.2.length < sigma)) else d) := by
  unfold prune_subsets
  exact lookupLevel_map_if si (maxKey si) _ j

theorem sizeKeys_prune (sigma : ℕ) (si : SubsetsIndices) :
    sizeKeys (prune_subsets sigma si) = sizeKeys si := by
  unfold prune_subsets sizeKeys
  rw [List.map_map]
  apply List.map_congr_left
  intro e _
  by_cases h : e.1 = maxKey si <;> simp [h]

theorem maxKey_range' (L : ℕ) (hL : 1 ≤ L) (si : SubsetsIndices)
    (h : sizeKeys si = List.range' 1 L) : maxKey si = L := by
  have key : ∀ (a n : ℕ) (si : SubsetsIndices), 1 ≤ n →
      sizeKeys si = List.range' a n → si.foldr (fun e m => max e.1 m) 0 = a + n - 1 := by
    intro a n
    induction n generalizing a with
    | zero => intro si h; omega
    | succ n ih =>
      intro si _ hsk
      match si with
      | [] => simp [sizeKeys] at hsk
      | e :: si =>
        simp only [sizeKeys, List.map_cons, List.range'_succ] at hsk
        obtain ⟨he, hsi⟩ := List.cons.inj hsk
        rcases Nat.eq_zero_or_pos n with hn | hn
        · subst hn
          simp only [List.range'] at hsi
          have : si = [] := by
            cases si with
            | nil => rfl
            | cons x xs => simp [sizeKeys] at hsi
          subst this; simp [he]
        · have := ih (a + 1) si hn hsi
          simp only [List.foldr, this, he]
          omega
  have := key 1 L si hL h
  unfold maxKey
  omega

/-! ## `insertItem` (frozenset insertion) lemmas -/

theorem mem_insertItem (i : ℕ) (l : List ℕ) (a : ℕ) :
    a ∈ insertItem i l ↔ a = i ∨ a ∈ l := by
  induction l with
  | nil => simp [insertItem]
  | cons x xs ih =>
    unfold insertItem
    by_cases h₁ : i < x
    · simp [h₁]
    · by_cases h₂ : i = x
      · subst h₂; simp [h₁]
      · simp [h₁, h₂, ih]
        tauto

theorem sorted_insertItem {l : List ℕ} (hl : List.Sorted (· < ·) l) (i : ℕ) :
    List.Sorted (· < ·) (insertItem i l) := by
  induction l with
  | nil => simp [insertItem]
  | cons x xs ih =>
    rw [List.sorted_cons] at hl
    obtain ⟨hx, hxs⟩ := hl
    unfold insertItem
    by_cases h₁ : i < x
    · rw [if_pos h₁, List.sorted_cons]
      constructor
      · intro b hb
        rcases List.mem_cons.mp hb with rfl | hb
        · exact h₁
        · exact lt_trans h₁ (hx b hb)
      · rw [List.sorted_cons]; exact ⟨hx, hxs⟩
    · by_cases h₂ : i = x
      · rw [if_neg h₁, if_pos h₂, List.sorted_cons]
        exact ⟨hx, hxs⟩
      · have hxi : x < i := by omega
        rw [if_neg h₁, if_neg h₂, List.sorted_cons]
        refine ⟨?_, ih hxs⟩
        intro b hb
        rcases (mem_insertItem i xs b).mp hb with rfl | hb
        · exact hxi
        · exact hx b hb

theorem length_insertItem {i : ℕ} {l : List ℕ} (h : i ∉ l) :
    (insertItem i l).length = l.length + 1 := by
  induction l with
  | nil => rfl
  | cons x xs ih =>
    simp only [List.mem_cons, not_or] at h
    unfold insertItem
    by_cases h₁ : i < x
    · rw [if_pos h₁]; simp
    · rw [if_neg h₁, if_neg h.1]
      simp [ih h.2]

theorem insertItem_subset_iff (i : ℕ) (l p : List ℕ) :
    insertItem i l ⊆ p ↔ i ∈ p ∧ l ⊆ p := by
  constructor
  · intro h
    exact ⟨h ((mem_insertItem i l i).mpr (Or.inl rfl)),
      fun a ha => h ((mem_insertItem i l a).mpr (Or.inr ha))⟩
  · rintro ⟨hi, hl⟩ a ha
    rcases (mem_insertItem i l a).mp ha with rfl | ha
    · exact hi
    · exact hl ha

theorem insertItem_inj {l : List ℕ} {i j : ℕ} (hi : i ∉ l)
    (h : insertItem i l = insertItem j l) : i = j := by
  have hm : i ∈ insertItem j l := by
    rw [← h]
    exact (mem_insertItem i l i).mpr (Or.inl rfl)
  rcases (mem_insertItem j l i).mp hm with h' | h'
  · exact h'
  · exact absurd h' hi

/-! ## `occList` (brute-force membership) lemmas -/

theorem occList_pairwise (purchases : List (List ℕ)) (S : Itemset) :
    (occList purchases S).Pairwise (· < ·) :=
  (List.pairwise_lt_range _).filter _

theorem occList_chain' (purchases : List (List ℕ)) (S : Itemset) :
    List.Chain' (· < ·) (occList purchases S) :=
  List.chain'_iff_pairwise.mpr (occList_pairwise purchases S)

theorem occList_nodup (purchases : List (List ℕ)) (S : Itemset) :
    (occList purchases S).Nodup :=
  (occList_pairwise purchases S).imp Nat.ne_of_lt

theorem mem_occList {purchases : List (List ℕ)} {S : Itemset} {t : ℕ} :
    t ∈ occList purchases S ↔ t < purchases.length ∧ S ⊆ purchases.getD t [] := by
  simp [occList, List.mem_filter, List.mem_range]

theorem occList_insertItem (purchases : List (List ℕ)) (S : Itemset) (i : ℕ) :
    (occList purchases S).filter (fun t => decide (i ∈ purchases.getD t [])) =
      occList purchases (insertItem i S) := by
  unfold occList
  rw [List.filter_filter]
  apply List.filter_congr
  intro t _
  have hiff := insertItem_subset_iff i S (purchases.getD t [])
  by_cases hi : i ∈ purchases.getD t []
  · by_cases hS : S ⊆ purchases.getD t []
    · rw [decide_eq_true hi, decide_eq_true hS,
        decide_eq_true (hiff.mpr ⟨hi, hS⟩)]
      rfl
    · rw [decide_eq_true hi, decide_eq_false hS,
        decide_eq_false (fun hc => hS (hiff.mp hc).2)]
      rfl
  · rw [decide_eq_false hi, decide_eq_false (fun hc => hi (hiff.mp hc).1)]
    rfl

theorem trueCount_mono (purchases : List (List ℕ)) {T S : Itemset} (h : T ⊆ S) :
    trueCount purchases S ≤ trueCount purchases T := by
  unfold trueCount occList
  refine (List.monotone_filter_right _ ?_).length_le
  intro t ht
  simp only [decide_eq_true_eq] at *
  exact fun a ha => ht (h ha)

/-! ## `appendNew` lemmas -/

theorem appendNew_of_subset {l ts : List ℕ} (h : ∀ t ∈ ts, t ∈ l) :
    appendNew l ts = l := by
  induction ts with
  | nil => rfl
  | cons t ts ih =>
    unfold appendNew at *
    simp only [List.foldl_cons, if_pos (h t (List.mem_cons_self t ts))]
    exact ih fun s hs => h s (List.mem_cons_of_mem t hs)

theorem appendNew_of_disjoint {ts : List ℕ} (hn : ts.Nodup) :
    ∀ {l : List ℕ}, (∀ t ∈ ts, t ∉ l) → appendNew l ts = l ++ ts := by
  induction ts with
  | nil => intro l _; simp [appendNew]
  | cons t ts ih =>
    intro l h
    simp only [List.nodup_cons] at hn
    unfold appendNew at *
    simp only [List.foldl_cons, if_neg (h t (List.mem_cons_self t ts))]
    rw [ih hn.2]
    · simp
    · intro s hs
      simp only [List.mem_append, List.mem_singleton, not_or]
      exact ⟨h s (List.mem_cons_of_mem t hs), fun hc => hn.1 (hc ▸ hs)⟩

/-! ## Verification-check and degenerate-input helper lemmas -/

theorem superset_potentially_good_iff (si : SubsetsIndices) (S : Itemset) (mc : ℕ) :
    superset_potentially_good si S mc = true ↔ subsetsChecked si S mc := by
  unfold superset_potentially_good subsetsChecked
  rw [List.all_eq_true]
  constructor
  · intro h c h2 hlt T hsub hlen
    have hc : c ∈ List.range' 2 (mc - 2) := by
      rw [List.mem_range'_1]
      omega
    have hall := h c hc
    rw [List.all_eq_true] at hall
    exact hall T (List.mem_sublistsLen.mpr ⟨hsub, hlen⟩)
  · intro h c hc
    rw [List.all_eq_true]
    intro T hT
    rw [List.mem_sublistsLen] at hT
    rw [List.mem_range'_1] at hc
    exact h c hc.1 (by omega) T hT.1 hT.2

theorem prune_zero (si : SubsetsIndices) : prune_subsets 0 si = si := by
  unfold prune_subsets
  have h : ∀ lv : ℕ × SupportIndex,
      (if lv.1 = maxKey si then (lv.1, lv.2.filter fun e => !decide (e.2.length < 0))
        else lv) = lv := by
    intro lv
    obtain ⟨a, b⟩ := lv
    by_cases h : a = maxKey si <;> simp [h]
  simp [h]

theorem max_purchase_size_zeros {purchases : List (List ℕ)}
    (hall : ∀ p ∈ purchases, p = []) (hne : purchases ≠ []) :
    max_purchase_size purchases = some 0 := by
  have key : ∀ (qs : List (List ℕ)), (∀ q ∈ qs, q = []) →
      (qs.map List.length).foldl max 0 = 0 := by
    intro qs
    induction qs with
    | nil => intro _; rfl
    | cons q qs ih =>
      intro h
      have hq : q = [] := h q (List.mem_cons_self q qs)
      simp only [List.map_cons, List.foldl_cons, hq]
      exact ih fun r hr => h r (List.mem_cons_of_mem q hr)
  cases purchases with
  | nil => exact absurd rfl hne
  | cons p ps =>
    unfold max_purchase_size
    simp only [List.map_cons]
    have hp : p = [] := hall p (List.mem_cons_self p ps)
    have := key ps fun r hr => hall r (List.mem_cons_of_mem p hr)
    rw [hp]
    simp only [List.length_nil]
    rw [this]

theorem seed_zeros : ∀ (purchases : List (List ℕ)) (d : SupportIndex) (idx : ℕ),
    (∀ p ∈ purchases, p = []) → seedFrom d idx purchases = d := by
  intro purchases
  induction purchases with
  | nil => intro d idx _; rfl
  | cons p ps ih =>
    intro d idx h
    have hp : p = [] := h p (List.mem_cons_self p ps)
    unfold seedFrom
    rw [hp]
    exact ih _ _ fun r hr => h r (List.mem_cons_of_mem p hr)

/-! ## Characterization of `count_size_one_subsets` -/

theorem lookupKey_addItemAt (idx : ℕ) (d : SupportIndex) (item : ℕ) (S : Itemset) :
    lookupKey (addItemAt idx d item) S =
      if S = [item] then some ((lookupKey d S).getD [] ++ [idx]) else lookupKey d S := by
  unfold addItemAt
  by_cases hk : hasKey d [item]
  · rw [if_pos hk, lookupKey_appendAt]
    by_cases hS : S = [item]
    · subst hS
      rw [if_pos rfl, if_pos rfl]
      unfold hasKey at hk
      cases hl : lookupKey d [item] with
      | none => rw [hl] at hk; simp at hk
      | some l => rfl
    · rw [if_neg hS, if_neg hS]
  · rw [if_neg hk, lookupKey_append_single]
    have hnone : lookupKey d [item] = none := by
      unfold hasKey at hk
      cases hl : lookupKey d [item] with
      | none => rfl
      | some l => rw [hl] at hk; simp at hk
    by_cases hS : S = [item]
    · subst hS
      rw [hnone]
      simp
    · have h' : ¬ [item] = S := fun hc => hS hc.symm
      rw [if_neg hS]
      cases hl : lookupKey d S <;> simp [h']

theorem lookupKey_addPurchase (idx : ℕ) (d : SupportIndex) (p : List ℕ)
    (hp : p.Nodup) (S : Itemset) :
    lookupKey (addPurchase idx d p) S =
      if ∃ x ∈ p, S = [x] then some ((lookupKey d S).getD [] ++ [idx])
      else lookupKey d S := by
  induction p generalizing d with
  | nil => simp [addPurchase]
  | cons y p ih =>
    rw [List.nodup_cons] at hp
    have hstep : addPurchase idx d (y :: p) = addPurchase idx (addItemAt idx d y) p := rfl
    rw [hstep, ih _ hp.2]
    by_cases hS : S = [y]
    · subst hS
      have hnp : ¬ ∃ x ∈ p, ([y] : Itemset) = [x] := by
        rintro ⟨x, hx, hxy⟩
        obtain rfl : y = x := by simpa using hxy
        exact hp.1 hx
      rw [if_neg hnp, lookupKey_addItemAt, if_pos rfl]
      have hyes : ∃ x ∈ y :: p, ([y] : Itemset) = [x] :=
        ⟨y, List.mem_cons_self y p, rfl⟩
      rw [if_pos hyes]
    · have hiff : (∃ x ∈ y :: p, S = [x]) ↔ (∃ x ∈ p, S = [x]) := by
        constructor
        · rintro ⟨x, hx, rfl⟩
          rcases List.mem_cons.mp hx with rfl | hx
          · exact absurd rfl hS
          · exact ⟨x, hx, rfl⟩
        · rintro ⟨x, hx, rfl⟩
          exact ⟨x, List.mem_cons_of_mem y hx, rfl⟩
      rw [lookupKey_addItemAt, if_neg hS]
      by_cases hc : ∃ x ∈ p, S = [x]
      · rw [if_pos hc, if_pos (hiff.mpr hc)]
      · rw [if_neg hc, if_neg (fun h => hc (hiff.mp h))]

theorem lookupKey_seedFrom (ps : List (List ℕ)) :
    ∀ (idx : ℕ) (d : SupportIndex), (∀ p ∈ ps, p.Nodup) → ∀ S : Itemset,
    lookupKey (seedFrom d idx ps) S =
      if S.length = 1 then
        (match lookupKey d S with
         | some l => some (l ++
            ((List.range' idx ps.length).filter fun t => decide (S ⊆ ps.getD (t - idx) [])))
         | none =>
            if ((List.range' idx ps.length).filter
                fun t => decide (S ⊆ ps.getD (t - idx) [])) = [] then none
            else some ((List.range' idx ps.length).filter
                fun t => decide (S ⊆ ps.getD (t - idx) [])))
      else lookupKey d S := by
  induction ps with
  | nil =>
    intro idx d _ S
    by_cases hs : S.length = 1 <;> cases hl : lookupKey d S <;> simp [hs, hl, seedFrom]
  | cons p ps ih =>
    intro idx d hn S
    have hstep : seedFrom d idx (p :: ps) = seedFrom (addPurchase idx d p) (idx + 1) ps := rfl
    rw [hstep, ih (idx + 1) _ (fun q hq => hn q (List.mem_cons_of_mem p hq)) S]
    have hfilt : ((List.range' idx (p :: ps).length).filter
        fun t => decide (S ⊆ (p :: ps).getD (t - idx) [])) =
        (if S ⊆ p then [idx] else []) ++
        ((List.range' (idx + 1) ps.length).filter
          fun t => decide (S ⊆ ps.getD (t - (idx + 1)) [])) := by
      have hr : List.range' idx (p :: ps).length = idx :: List.range' (idx + 1) ps.length := rfl
      rw [hr, List.filter_cons]
      have hidx : ((p :: ps).getD (idx - idx) []) = p := by
        simp [Nat.sub_self]
      rw [hidx]
      have hcong : ((List.range' (idx + 1) ps.length).filter
          fun t => decide (S ⊆ (p :: ps).getD (t - idx) [])) =
          ((List.range' (idx + 1) ps.length).filter
            fun t => decide (S ⊆ ps.getD (t - (idx + 1)) [])) := by
        apply List.filter_congr
        intro t ht
        rw [List.mem_range'_1] at ht
        have h1 : t - idx = (t - (idx + 1)) + 1 := by omega
        rw [h1]
        rfl
      rw [hcong]
      by_cases hsp : S ⊆ p <;> simp [hsp]
    rw [hfilt]
    have hadd := lookupKey_addPurchase idx d p (hn p (List.mem_cons_self p ps)) S
    by_cases hs : S.length = 1
    · rw [if_pos hs, if_pos hs]
      obtain ⟨x, rfl⟩ := List.length_eq_one.mp hs
      have hsub : ([x] : Itemset) ⊆ p ↔ x ∈ p := by simp
      by_cases hxp : x ∈ p
      · have hex : ∃ y ∈ p, ([x] : Itemset) = [y] := ⟨x, hxp, rfl⟩
        rw [if_pos hex] at hadd
        rw [hadd, if_pos (hsub.mpr hxp)]
        cases hl : lookupKey d [x] with
        | none => simp
        | some l => simp
      · have hnex : ¬ ∃ y ∈ p, ([x] : Itemset) = [y] := by
          rintro ⟨y, hy, hxy⟩
          obtain rfl : x = y := by simpa using hxy
          exact hxp hy
        rw [if_neg hnex] at hadd
        rw [hadd, if_neg (fun hc => hxp (hsub.mp hc))]
        simp
    · rw [if_neg hs, if_neg hs]
      have hnex : ¬ ∃ y ∈ p, S = [y] := fun ⟨y, _, hy⟩ => hs (by rw [hy]; rfl)
      rw [if_neg hnex] at hadd
      rw [hadd]

/-- The membership list recorded by the seed step for a singleton key is the
exact `occList`; non-singleton keys are absent. -/
theorem seed_char (purchases : List (List ℕ)) (hn : ∀ p ∈ purchases, p.Nodup)
    (S : Itemset) :
    lookupKey (seedFrom [] 0 purchases) S =
      if S.length = 1 ∧ occList purchases S ≠ [] then some (occList purchases S)
      else none := by
  rw [lookupKey_seedFrom purchases 0 [] hn S]
  have hocc : ((List.range' 0 purchases.length).filter
      fun t => decide (S ⊆ purchases.getD (t - 0) [])) = occList purchases S := by
    unfold occList
    rw [← List.range_eq_range']
    apply List.filter_congr
    intro t _
    rw [Nat.sub_zero]
  rw [hocc]
  by_cases hs : S.length = 1
  · rw [if_pos hs]
    show (if occList purchases S = [] then none else some (occList purchases S)) = _
    by_cases ho : occList purchases S = []
    · rw [if_pos ho, if_neg (fun hc => hc.2 ho)]
    · rw [if_neg ho, if_pos ⟨hs, ho⟩]
  · rw [if_neg hs, if_neg (fun hc => hs hc.1)]
    rfl

theorem keys_nodup_addItemAt (idx : ℕ) (d : SupportIndex) (item : ℕ)
    (h : (keys d).Nodup) : (keys (addItemAt idx d item)).Nodup := by
  unfold addItemAt
  by_cases hk : hasKey d [item]
  · rw [if_pos hk, keys_appendAt]
    exact h
  · rw [if_neg hk, keys_append_single]
    have hnm : ([item] : Itemset) ∉ keys d := by
      intro hc
      exact hk ((mem_keys_iff_lookup d [item]).mp hc)
    rw [List.nodup_append]
    refine ⟨h, List.nodup_singleton _, ?_⟩
    intro a ha hb
    rw [List.mem_singleton] at hb
    subst hb
    exact hnm ha

theorem keys_nodup_addPurchase (idx : ℕ) (d : SupportIndex) (p : List ℕ)
    (h : (keys d).Nodup) : (keys (addPurchase idx d p)).Nodup := by
  induction p generalizing d with
  | nil => exact h
  | cons y p ih => exact ih _ (keys_nodup_addItemAt idx d y h)

theorem keys_nodup_seedFrom (ps : List (List ℕ)) :
    ∀ (idx : ℕ) (d : SupportIndex), (keys d).Nodup → (keys (seedFrom d idx ps)).Nodup := by
  induction ps with
  | nil => intro _ _ h; exact h
  | cons p ps ih =>
    intro idx d h
    exact ih (idx + 1) _ (keys_nodup_addPurchase idx d p h)

/-! ## Characterization of `count_subsets_of_size`: the per-item step -/

theorem stepT_idem (v : Bool) (pidx : ℕ) (m : Option (List ℕ)) :
    stepT v pidx (stepT v pidx m) = stepT v pidx m := by
  cases m with
  | some l => by_cases hp : pidx ∈ l <;> simp [stepT, hp]
  | none => cases v <;> simp [stepT]

theorem lookupKey_processItem (si : SubsetsIndices) (mcs k : ℕ) (S' : Itemset)
    (pidx : ℕ) (cur : SupportIndex) (item : ℕ) (S : Itemset) :
    lookupKey (processItem si mcs k S' pidx cur item) S =
      if item ∉ S' ∧ hasKey (levelD si 1) [item] = true ∧ S = insertItem item S' then
        stepT (superset_potentially_good si S (min mcs k)) pidx (lookupKey cur S)
      else lookupKey cur S := by
  unfold processItem
  by_cases h1 : item ∈ S'
  · rw [if_pos h1, if_neg (fun hc => hc.1 h1)]
  · rw [if_neg h1]
    by_cases h2 : hasKey (levelD si 1) [item] = true
    · rw [if_neg (not_not_intro h2)]
      by_cases hS : S = insertItem item S'
      · subst hS
        rw [if_pos ⟨h1, h2, rfl⟩]
        cases hm : lookupKey cur (insertItem item S') with
        | some l =>
          simp only [hm, stepT]
          by_cases hp : pidx ∈ l
          · simp [hp, hm]
          · simp [hp, lookupKey_appendAt, hm]
        | none =>
          simp only [hm, stepT]
          by_cases hg : superset_potentially_good si (insertItem item S') (min mcs k) = true
          · simp [hg, lookupKey_append_single, hm]
          · simp [hg, hm]
      · rw [if_neg (fun hc => hS hc.2.2)]
        have hne : ¬ insertItem item S' = S := fun hc => hS hc.symm
        cases hm : lookupKey cur (insertItem item S') with
        | some l =>
          simp only [hm]
          by_cases hp : pidx ∈ l
          · rw [if_pos hp]
          · rw [if_neg hp, lookupKey_appendAt, if_neg hS]
        | none =>
          simp only [hm]
          by_cases hg : superset_potentially_good si (insertItem item S') (min mcs k) = true
          · rw [if_pos hg, lookupKey_append_single]
            cases hcs : lookupKey cur S with
            | some l => rfl
            | none => rw [if_neg hne]
          · rw [if_neg hg]
    · rw [if_pos h2, if_neg (fun hc => h2 hc.2.1)]

theorem keys_nodup_processItem (si : SubsetsIndices) (mcs k : ℕ) (S' : Itemset)
    (pidx : ℕ) (cur : SupportIndex) (item : ℕ) (h : (keys cur).Nodup) :
    (keys (processItem si mcs k S' pidx cur item)).Nodup := by
  unfold processItem
  by_cases h1 : item ∈ S'
  · rwa [if_pos h1]
  · rw [if_neg h1]
    by_cases h2 : hasKey (levelD si 1) [item] = true
    · rw [if_neg (not_not_intro h2)]
      cases hm : lookupKey cur (insertItem item S') with
      | some l =>
        simp only [hm]
        by_cases hp : pidx ∈ l
        · rwa [if_pos hp]
        · rw [if_neg hp, keys_appendAt]
          exact h
      | none =>
        simp only [hm]
        by_cases hg : superset_potentially_good si (insertItem item S') (min mcs k) = true
        · rw [if_pos hg, keys_append_single, List.nodup_append]
          refine ⟨h, List.nodup_singleton _, ?_⟩
          intro a ha hb
          rw [List.mem_singleton] at hb
          subst hb
          have : (lookupKey cur (insertItem item S')).isSome :=
            (mem_keys_iff_lookup cur _).mp ha
          rw [hm] at this
          simp at this
        · rwa [if_neg hg]
    · rwa [if_pos h2]

/-! ## The fold over one purchase (`for item in current_purchase`) -/

theorem lookupKey_foldl_items (si : SubsetsIndices) (mcs k : ℕ) (S' : Itemset)
    (pidx : ℕ) (S : Itemset) :
    ∀ (p : List ℕ) (cur : SupportIndex),
    lookupKey (p.foldl (processItem si mcs k S' pidx) cur) S =
      if ∃ i ∈ p, i ∉ S' ∧ hasKey (levelD si 1) [i] = true ∧ S = insertItem i S' then
        stepT (superset_potentially_good si S (min mcs k)) pidx (lookupKey cur S)
      else lookupKey cur S := by
  intro p
  induction p with
  | nil =>
    intro cur
    rw [if_neg (by rintro ⟨i, hi, -⟩; exact absurd hi (List.not_mem_nil i))]
    rfl
  | cons j p ih =>
    intro cur
    rw [List.foldl_cons, ih]
    rw [lookupKey_processItem]
    by_cases hj : j ∉ S' ∧ hasKey (levelD si 1) [j] = true ∧ S = insertItem j S'
    · rw [if_pos hj]
      have hyes : ∃ i ∈ j :: p, i ∉ S' ∧ hasKey (levelD si 1) [i] = true ∧
          S = insertItem i S' := ⟨j, List.mem_cons_self j p, hj⟩
      rw [if_pos hyes]
      by_cases hp : ∃ i ∈ p, i ∉ S' ∧ hasKey (levelD si 1) [i] = true ∧ S = insertItem i S'
      · rw [if_pos hp, stepT_idem]
      · rw [if_neg hp]
    · rw [if_neg hj]
      have hiff : (∃ i ∈ j :: p, i ∉ S' ∧ hasKey (levelD si 1) [i] = true ∧
          S = insertItem i S') ↔
          (∃ i ∈ p, i ∉ S' ∧ hasKey (levelD si 1) [i] = true ∧ S = insertItem i S') := by
        constructor
        · rintro ⟨i, hi, hc⟩
          rcases List.mem_cons.mp hi with rfl | hi
          · exact absurd hc hj
          · exact ⟨i, hi, hc⟩
        · rintro ⟨i, hi, hc⟩
          exact ⟨i, List.mem_cons_of_mem j hi, hc⟩
      by_cases hp : ∃ i ∈ p, i ∉ S' ∧ hasKey (levelD si 1) [i] = true ∧ S = insertItem i S'
      · rw [if_pos hp, if_pos (hiff.mpr hp)]
      · rw [if_neg hp, if_neg (fun hc => hp (hiff.mp hc))]

theorem keys_nodup_foldl_items (si : SubsetsIndices) (mcs k : ℕ) (S' : Itemset)
    (pidx : ℕ) :
    ∀ (p : List ℕ) (cur : SupportIndex), (keys cur).Nodup →
    (keys (p.foldl (processItem si mcs k S' pidx) cur)).Nodup := by
  intro p
  induction p with
  | nil => intro cur h; exact h
  | cons j p ih =>
    intro cur h
    exact ih _ (keys_nodup_processItem si mcs k S' pidx cur j h)

/-! ## The fold over a membership list (`for purchase_idx in purchase_indices`) -/

theorem lookupKey_foldl_ts (purchases : List (List ℕ)) (si : SubsetsIndices)
    (mcs k : ℕ) (S' : Itemset) (S : Itemset) :
    ∀ (ts : List ℕ) (cur : SupportIndex),
    lookupKey (ts.foldl (processPurchase purchases si mcs k S') cur) S =
      ts.foldl (fun m t =>
        if ∃ i ∈ purchases.getD t [], i ∉ S' ∧ hasKey (levelD si 1) [i] = true ∧
            S = insertItem i S' then
          stepT (superset_potentially_good si S (min mcs k)) t m
        else m) (lookupKey cur S) := by
  intro ts
  induction ts with
  | nil => intro cur; rfl
  | cons t ts ih =>
    intro cur
    rw [List.foldl_cons, List.foldl_cons, ih]
    congr 1
    unfold processPurchase
    rw [lookupKey_foldl_items]

theorem keys_nodup_foldl_ts (purchases : List (List ℕ)) (si : SubsetsIndices)
    (mcs k : ℕ) (S' : Itemset) :
    ∀ (ts : List ℕ) (cur : SupportIndex), (keys cur).Nodup →
    (keys (ts.foldl (processPurchase purchases si mcs k S') cur)).Nodup := by
  intro ts
  induction ts with
  | nil => intro cur h; exact h
  | cons t ts ih =>
    intro cur h
    exact ih _ (keys_nodup_foldl_items si mcs k S' t _ cur h)

/-! ## Evaluating the option fold -/

theorem foldl_if_filter (g : Bool) (cond : ℕ → Prop) [DecidablePred cond] :
    ∀ (ts : List ℕ) (m : Option (List ℕ)),
    ts.foldl (fun m t => if cond t then stepT g t m else m) m =
      (ts.filter fun t => decide (cond t)).foldl (fun m t => stepT g t m) m := by
  intro ts
  induction ts with
  | nil => intro m; rfl
  | cons t ts ih =>
    intro m
    rw [List.foldl_cons, List.filter_cons]
    by_cases hc : cond t
    · rw [if_pos hc, if_pos (by simpa using hc), List.foldl_cons, ih]
    · rw [if_neg hc, if_neg (by simpa using hc), ih]

theorem appendNew_cons (l : List ℕ) (t : ℕ) (ts : List ℕ) :
    appendNew l (t :: ts) = appendNew (if t ∈ l then l else l ++ [t]) ts := rfl

theorem foldl_stepT_some (g : Bool) :
    ∀ (ts l : List ℕ),
    ts.foldl (fun m t => stepT g t m) (some l) = some (appendNew l ts) := by
  intro ts
  induction ts with
  | nil => intro l; rfl
  | cons t ts ih =>
    intro l
    have hstep : stepT g t (some l) = some (if t ∈ l then l else l ++ [t]) := rfl
    rw [List.foldl_cons, hstep, appendNew_cons]
    by_cases hp : t ∈ l
    · rw [if_pos hp]
      exact ih l
    · rw [if_neg hp]
      exact ih (l ++ [t])

theorem foldl_stepT_none_false :
    ∀ ts : List ℕ, ts.foldl (fun m t => stepT false t m) none = none := by
  intro ts
  induction ts with
  | nil => rfl
  | cons t ts ih =>
    rw [List.foldl_cons]
    show ts.foldl _ (stepT false t none) = _
    unfold stepT
    rw [if_neg (by simp)]
    exact ih

theorem foldl_stepT_none_true :
    ∀ ts : List ℕ, ts.foldl (fun m t => stepT true t m) none =
      match ts with
      | [] => none
      | t :: ts' => some (appendNew [t] ts') := by
  intro ts
  cases ts with
  | nil => rfl
  | cons t ts' =>
    rw [List.foldl_cons]
    show ts'.foldl _ (stepT true t none) = _
    unfold stepT
    rw [if_pos rfl]
    exact foldl_stepT_some true ts' [t]

/-! ## The fold over one size-(k-1) entry -/

theorem foldl_if_congr (g : Bool) (C₁ C₂ : ℕ → Prop) [DecidablePred C₁]
    [DecidablePred C₂] (h : ∀ t, C₁ t ↔ C₂ t) :
    ∀ (ts : List ℕ) (m : Option (List ℕ)),
    ts.foldl (fun m t => if C₁ t then stepT g t m else m) m =
      ts.foldl (fun m t => if C₂ t then stepT g t m else m) m := by
  intro ts
  induction ts with
  | nil => intro m; rfl
  | cons t ts ih =>
    intro m
    rw [List.foldl_cons, List.foldl_cons]
    by_cases hc : C₁ t
    · rw [if_pos hc, if_pos ((h t).mp hc), ih]
    · rw [if_neg hc, if_neg (fun hx => hc ((h t).mpr hx)), ih]

theorem lookup_of_mem_nodup : ∀ {d : SupportIndex}, (keys d).Nodup →
    ∀ {e : Itemset × List ℕ}, e ∈ d → lookupKey d e.1 = some e.2 := by
  intro d
  induction d with
  | nil => intro _ e he; simp at he
  | cons f d ih =>
    intro hn e he
    have hn' : f.1 ∉ keys d ∧ (keys d).Nodup := by
      rw [keys, List.map_cons, List.nodup_cons] at hn
      exact ⟨hn.1, hn.2⟩
    rcases List.mem_cons.mp he with rfl | he
    · rw [lookupKey, if_pos rfl]
    · have hne : ¬ f.1 = e.1 := by
        intro hc
        apply hn'.1
        rw [hc]
        exact List.mem_map.mpr ⟨e, he, rfl⟩
      rw [lookupKey, if_neg hne]
      exact ih hn'.2 he

theorem mem_of_lookup : ∀ {d : SupportIndex} {S : Itemset} {l : List ℕ},
    lookupKey d S = some l → (S, l) ∈ d := by
  intro d
  induction d with
  | nil => intro S l h; simp [lookupKey] at h
  | cons f d ih =>
    intro S l h
    rw [lookupKey] at h
    by_cases hf : f.1 = S
    · rw [if_pos hf] at h
      obtain rfl : f.2 = l := by injection h
      subst hf
      exact List.mem_cons_self f d
    · rw [if_neg hf] at h
      exact List.mem_cons_of_mem f (ih h)

theorem lookupKey_processEntry (purchases : List (List ℕ)) (si : SubsetsIndices)
    (mcs k : ℕ) (e : Itemset × List ℕ) (hval : e.2 = occList purchases e.1)
    (cur : SupportIndex) (S : Itemset) :
    lookupKey (processEntry purchases si mcs k cur e) S =
      match lookupKey cur S with
      | some l =>
        if extWitness si e.1 S then some (appendNew l (occList purchases S)) else some l
      | none =>
        if admits purchases si e.1 S ∧
            superset_potentially_good si S (min mcs k) = true then
          some (occList purchases S)
        else none := by
  unfold processEntry
  rw [lookupKey_foldl_ts purchases si mcs k e.1 S e.2 cur, hval]
  by_cases hw : extWitness si e.1 S
  · have hw' := hw
    obtain ⟨i₀, hi₀S, hi₀n, hi₀f, hi₀eq⟩ := hw'
    have huniq : ∀ t, (∃ i ∈ purchases.getD t [], i ∉ e.1 ∧
        hasKey (levelD si 1) [i] = true ∧ S = insertItem i e.1) ↔
        i₀ ∈ purchases.getD t [] := by
      intro t
      constructor
      · rintro ⟨i, hip, hin, hif, hieq⟩
        have : i = i₀ := insertItem_inj hin (hieq.symm.trans hi₀eq)
        subst this
        exact hip
      · intro hmem
        exact ⟨i₀, hmem, hi₀n, hi₀f, hi₀eq⟩
    rw [foldl_if_congr _ _ _ huniq, foldl_if_filter,
      occList_insertItem purchases e.1 i₀, ← hi₀eq]
    cases hm : lookupKey cur S with
    | some l =>
      rw [foldl_stepT_some]
      show _ = if extWitness si e.1 S then some (appendNew l (occList purchases S))
        else some l
      rw [if_pos hw]
    | none =>
      show _ = if admits purchases si e.1 S ∧
          superset_potentially_good si S (min mcs k) = true then
        some (occList purchases S) else none
      cases hg : superset_potentially_good si S (min mcs k) with
      | true =>
        rw [foldl_stepT_none_true]
        cases ho : occList purchases S with
        | nil =>
          rw [if_neg (fun hc => hc.1.2 ho)]
        | cons t r =>
          have hnd : (t :: r).Nodup := ho ▸ occList_nodup purchases S
          have hdisj : ∀ s ∈ r, s ∉ ([t] : List ℕ) := by
            intro s hs hc
            rw [List.mem_singleton] at hc
            subst hc
            exact (List.nodup_cons.mp hnd).1 hs
          have hap : appendNew [t] r = t :: r :=
            appendNew_of_disjoint (List.nodup_cons.mp hnd).2 hdisj
          show some (appendNew [t] r) = _
          rw [hap, if_pos ⟨⟨hw, by rw [ho]; simp⟩, rfl⟩]
      | false =>
        rw [foldl_stepT_none_false]
        rw [if_neg (fun hc => Bool.false_ne_true hc.2)]
  · have hCT : ∀ t, ¬ (∃ i ∈ purchases.getD t [], i ∉ e.1 ∧
        hasKey (levelD si 1) [i] = true ∧ S = insertItem i e.1) := by
      rintro t ⟨i, hip, hin, hif, hieq⟩
      exact hw ⟨i, by rw [hieq]; exact (mem_insertItem i e.1 i).mpr (Or.inl rfl),
        hin, hif, hieq⟩
    rw [foldl_if_filter]
    have hnil : ((occList purchases e.1).filter
        fun t => decide (∃ i ∈ purchases.getD t [], i ∉ e.1 ∧
          hasKey (levelD si 1) [i] = true ∧ S = insertItem i e.1)) = [] := by
      apply List.filter_eq_nil_iff.mpr
      intro t _
      simpa using hCT t
    rw [hnil]
    cases hm : lookupKey cur S with
    | some l =>
      show some l = if extWitness si e.1 S then some (appendNew l (occList purchases S))
        else some l
      rw [if_neg hw]
    | none =>
      show (none : Option (List ℕ)) = if admits purchases si e.1 S ∧
          superset_potentially_good si S (min mcs k) = true then
        some (occList purchases S) else none
      rw [if_neg (fun hc => hw hc.1.1)]

/-! ## The fold over all size-(k-1) entries -/

theorem genFrom_cons (purchases : List (List ℕ)) (si : SubsetsIndices)
    (e : Itemset × List ℕ) (es : List (Itemset × List ℕ)) (S : Itemset) :
    genFrom purchases si (e :: es) S ↔
      admits purchases si e.1 S ∨ genFrom purchases si es S := by
  unfold genFrom
  constructor
  · rintro ⟨f, hf, ha⟩
    rcases List.mem_cons.mp hf with rfl | hf
    · exact Or.inl ha
    · exact Or.inr ⟨f, hf, ha⟩
  · rintro (ha | ⟨f, hf, ha⟩)
    · exact ⟨e, List.mem_cons_self e es, ha⟩
    · exact ⟨f, List.mem_cons_of_mem e hf, ha⟩

theorem foldl_entries_char (purchases : List (List ℕ)) (si : SubsetsIndices)
    (mcs k : ℕ) :
    ∀ (es : List (Itemset × List ℕ)) (cur : SupportIndex) (P : Itemset → Prop),
    (∀ e ∈ es, e.2 = occList purchases e.1) →
    (∀ S l, lookupKey cur S = some l →
      P S ∧ superset_potentially_good si S (min mcs k) = true ∧
        l = occList purchases S) →
    (∀ S, P S → superset_potentially_good si S (min mcs k) = true →
      (lookupKey cur S).isSome) →
    ∀ S,
      (∀ l, lookupKey (es.foldl (processEntry purchases si mcs k) cur) S = some l →
        (P S ∨ genFrom purchases si es S) ∧
          superset_potentially_good si S (min mcs k) = true ∧
          l = occList purchases S) ∧
      ((P S ∨ genFrom purchases si es S) →
        superset_potentially_good si S (min mcs k) = true →
        (lookupKey (es.foldl (processEntry purchases si mcs k) cur) S).isSome) := by
  intro es
  induction es with
  | nil =>
    intro cur P _ hsound hcomp S
    constructor
    · intro l hl
      obtain ⟨h1, h2, h3⟩ := hsound S l hl
      exact ⟨Or.inl h1, h2, h3⟩
    · rintro (hP | ⟨f, hf, -⟩) hg
      · exact hcomp S hP hg
      · simp at hf
  | cons e es ih =>
    intro cur P hval hsound hcomp S
    have hvale : e.2 = occList purchases e.1 := hval e (List.mem_cons_self e es)
    have hval' : ∀ f ∈ es, f.2 = occList purchases f.1 :=
      fun f hf => hval f (List.mem_cons_of_mem e hf)
    have hstep : ∀ T : Itemset,
        lookupKey (processEntry purchases si mcs k cur e) T =
          match lookupKey cur T with
          | some l => if extWitness si e.1 T then
              some (appendNew l (occList purchases T)) else some l
          | none => if admits purchases si e.1 T ∧
                superset_potentially_good si T (min mcs k) = true then
              some (occList purchases T)
            else none :=
      fun T => lookupKey_processEntry purchases si mcs k e hvale cur T
    have hsound₁ : ∀ T l, lookupKey (processEntry purchases si mcs k cur e) T = some l →
        (P T ∨ admits purchases si e.1 T) ∧
          superset_potentially_good si T (min mcs k) = true ∧
          l = occList purchases T := by
      intro T l hl
      rw [hstep T] at hl
      cases hm : lookupKey cur T with
      | some l₀ =>
        simp only [hm] at hl
        obtain ⟨hP, hg, hocc⟩ := hsound T l₀ hm
        by_cases hwit : extWitness si e.1 T
        · rw [if_pos hwit] at hl
          injection hl with hl
          subst hocc
          refine ⟨Or.inl hP, hg, ?_⟩
          rw [← hl, appendNew_of_subset (fun t ht => ht)]
        · rw [if_neg hwit] at hl
          injection hl with hl
          exact ⟨Or.inl hP, hg, hl ▸ hocc⟩
      | none =>
        simp only [hm] at hl
        by_cases hc : admits purchases si e.1 T ∧
            superset_potentially_good si T (min mcs k) = true
        · rw [if_pos hc] at hl
          injection hl with hl
          exact ⟨Or.inr hc.1, hc.2, hl.symm⟩
        · rw [if_neg hc] at hl
          exact absurd hl (by simp)
    have hcomp₁ : ∀ T, (P T ∨ admits purchases si e.1 T) →
        superset_potentially_good si T (min mcs k) = true →
        (lookupKey (processEntry purchases si mcs k cur e) T).isSome := by
      intro T hPT hg
      rw [hstep T]
      cases hm : lookupKey cur T with
      | some l₀ =>
        simp only [hm]
        by_cases hwit : extWitness si e.1 T
        · rw [if_pos hwit]; rfl
        · rw [if_neg hwit]; rfl
      | none =>
        simp only [hm]
        rcases hPT with hP | ha
        · have := hcomp T hP hg
          rw [hm] at this
          simp at this
        · rw [if_pos ⟨ha, hg⟩]; rfl
    have hres := ih (processEntry purchases si mcs k cur e)
      (fun T => P T ∨ admits purchases si e.1 T) hval' hsound₁ hcomp₁ S
    have hfold : (e :: es).foldl (processEntry purchases si mcs k) cur =
        es.foldl (processEntry purchases si mcs k)
          (processEntry purchases si mcs k cur e) := rfl
    rw [hfold]
    constructor
    · intro l hl
      obtain ⟨hPg, hg, hocc⟩ := hres.1 l hl
      refine ⟨?_, hg, hocc⟩
      rw [genFrom_cons]
      tauto
    · intro hPg hg
      apply hres.2 ?_ hg
      rw [genFrom_cons] at hPg
      tauto

theorem keys_nodup_foldl_entries (purchases : List (List ℕ)) (si : SubsetsIndices)
    (mcs k : ℕ) :
    ∀ (es : List (Itemset × List ℕ)) (cur : SupportIndex), (keys cur).Nodup →
    (keys (es.foldl (processEntry purchases si mcs k) cur)).Nodup := by
  intro es
  induction es with
  | nil => intro cur h; exact h
  | cons e es ih =>
    intro cur h
    exact ih _ (keys_nodup_foldl_ts purchases si mcs k e.1 e.2 cur h)

/-! ## Characterization of a full `count_subsets_of_size` call -/

theorem insertItem_head {x : ℕ} {l : List ℕ} (h : ∀ y ∈ l, x < y) :
    insertItem x l = x :: l := by
  cases l with
  | nil => rfl
  | cons y t =>
    unfold insertItem
    rw [if_pos (h y (List.mem_cons_self y t))]

theorem build_level_char (purchases : List (List ℕ)) (si : SubsetsIndices)
    (mcs k : ℕ) (hval : ∀ e ∈ levelD si (k - 1), e.2 = occList purchases e.1) :
    (∀ S l, lookupKey (levelD (count_subsets_of_size purchases mcs k si) k) S = some l →
      genFrom purchases si (levelD si (k - 1)) S ∧
        superset_potentially_good si S (min mcs k) = true ∧ l = occList purchases S) ∧
    (∀ S, genFrom purchases si (levelD si (k - 1)) S →
      superset_potentially_good si S (min mcs k) = true →
      (lookupKey (levelD (count_subsets_of_size purchases mcs k si) k) S).isSome) ∧
    (keys (levelD (count_subsets_of_size purchases mcs k si) k)).Nodup ∧
    (∀ j, j ≠ k → lookupLevel (count_subsets_of_size purchases mcs k si) j =
      lookupLevel si j) := by
  have hlvl : levelD (count_subsets_of_size purchases mcs k si) k =
      (levelD si (k - 1)).foldl (processEntry purchases si mcs k) [] := by
    unfold count_subsets_of_size levelD
    rw [lookupLevel_setLevel, if_pos rfl]
    rfl
  have hchar := foldl_entries_char purchases si mcs k (levelD si (k - 1)) []
    (fun _ => False) hval
    (fun S l hl => absurd hl (by simp [lookupKey]))
    (fun S hF => absurd hF not_false)
  refine ⟨?_, ?_, ?_, ?_⟩
  · intro S l hl
    rw [hlvl] at hl
    obtain ⟨hor, hg, hocc⟩ := (hchar S).1 l hl
    rcases hor with hF | hgen
    · exact absurd hF not_false
    · exact ⟨hgen, hg, hocc⟩
  · intro S hgen hg
    rw [hlvl]
    exact (hchar S).2 (Or.inr hgen) hg
  · rw [hlvl]
    exact keys_nodup_foldl_entries purchases si mcs k (levelD si (k - 1)) []
      List.nodup_nil
  · intro j hj
    unfold count_subsets_of_size
    rw [lookupLevel_setLevel, if_neg hj]

theorem range'_one_concat {k : ℕ} (hk : 1 ≤ k) :
    List.range' 1 (k - 1) ++ [k] = List.range' 1 k := by
  have h := @List.range'_concat 1 1 (k - 1)
  have h2 : (k - 1) + 1 = k := by omega
  have h3 : 1 + 1 * (k - 1) = k := by omega
  rw [h2, h3] at h
  exact h.symm

/-- The induction step of the level-wise search: if the table is good up to
size `k-1`, then after `count_subsets_of_size` at size `k` followed by
`prune_subsets`, it is good up to size `k`. -/
theorem pruned_build_good (purchases : List (List ℕ)) (si : SubsetsIndices)
    (mcs sigma k : ℕ) (hk2 : 2 ≤ k)
    (hgt : goodTable purchases sigma (k - 1) si) :
    goodTable purchases sigma k
      (prune_subsets sigma (count_subsets_of_size purchases mcs k si)) := by
  obtain ⟨hsk, hgood⟩ := hgt
  obtain ⟨dk1, hdk1⟩ : ∃ d, lookupLevel si (k - 1) = some d := by
    apply Option.isSome_iff_exists.mp
    apply (mem_sizeKeys_iff_lookup si (k - 1)).mp
    rw [hsk, List.mem_range'_1]
    omega
  have hlevD : levelD si (k - 1) = dk1 := by unfold levelD; rw [hdk1]; rfl
  obtain ⟨hk1nodup, hk1sound, hk1comp⟩ := hgood _ _ hdk1
  obtain ⟨d1, hd1⟩ : ∃ d, lookupLevel si 1 = some d := by
    apply Option.isSome_iff_exists.mp
    apply (mem_sizeKeys_iff_lookup si 1).mp
    rw [hsk, List.mem_range'_1]
    omega
  have hlevD1 : levelD si 1 = d1 := by unfold levelD; rw [hd1]; rfl
  obtain ⟨-, -, h1comp⟩ := hgood _ _ hd1
  have hval : ∀ e ∈ levelD si (k - 1), e.2 = occList purchases e.1 := by
    intro e he
    rw [hlevD] at he
    exact (hk1sound e.1 e.2 (lookup_of_mem_nodup hk1nodup he)).1
  obtain ⟨hsound, hcomp, hnodup, hothers⟩ := build_level_char purchases si mcs k hval
  have hknone : lookupLevel si k = none := by
    apply lookupLevel_eq_none_of_not_mem
    rw [hsk, List.mem_range'_1]
    omega
  have hskb : sizeKeys (count_subsets_of_size purchases mcs k si) = List.range' 1 k := by
    unfold count_subsets_of_size
    rw [sizeKeys_setLevel_fresh _ _ _ hknone, hsk]
    exact range'_one_concat (by omega)
  have hmaxb : maxKey (count_subsets_of_size purchases mcs k si) = k :=
    maxKey_range' k (by omega) _ hskb
  obtain ⟨B, hB⟩ : ∃ B, lookupLevel (count_subsets_of_size purchases mcs k si) k =
      some B := by
    apply Option.isSome_iff_exists.mp
    apply (mem_sizeKeys_iff_lookup _ k).mp
    rw [hskb, List.mem_range'_1]
    omega
  have hBlev : levelD (count_subsets_of_size purchases mcs k si) k = B := by
    unfold levelD; rw [hB]; rfl
  rw [hBlev] at hsound hcomp hnodup
  constructor
  · rw [sizeKeys_prune, hskb]
  · intro j d hj
    rw [lookupLevel_prune, hmaxb] at hj
    by_cases hjk : j = k
    · rw [hjk] at hj
      rw [hjk]
      rw [hB] at hj
      have hj' : some (if k = k then
          B.filter (fun e => !decide (e.2.length < sigma)) else B) = some d := hj
      rw [if_pos rfl] at hj'
      have hd : d = B.filter (fun e => !decide (e.2.length < sigma)) :=
        (Option.some.inj hj').symm
      subst hd
      refine ⟨?_, ?_, ?_⟩
      · exact hnodup.sublist (keys_filter_sublist B _)
      · intro S l hl
        rw [lookupKey_filter hnodup] at hl
        cases hm : lookupKey B S with
        | none => rw [hm] at hl; simp at hl
        | some l₀ =>
          simp only [hm] at hl
          by_cases hpred : (!decide (l₀.length < sigma)) = true
          · rw [if_pos hpred] at hl
            obtain rfl : l₀ = l := by injection hl
            obtain ⟨hgen, -, hocc⟩ := hsound S l₀ hm
            obtain ⟨e, he, ⟨⟨i, hiS, hin, hif, hieq⟩, hne⟩⟩ := hgen
            rw [hlevD] at he
            obtain ⟨-, hesort, helen, -⟩ :=
              hk1sound e.1 e.2 (lookup_of_mem_nodup hk1nodup he)
            have hsorted : List.Sorted (· < ·) S := by
              rw [hieq]; exact sorted_insertItem hesort i
            have hlen : S.length = k := by
              rw [hieq, length_insertItem hin, helen]; omega
            have hsig : sigma ≤ l₀.length := by
              simp only [Bool.not_eq_eq_eq_not, Bool.not_true, decide_eq_false_iff_not,
                Nat.not_lt] at hpred
              exact hpred
            have hone : 1 ≤ l₀.length := by
              rw [hocc]
              have : occList purchases S ≠ [] := hne
              cases hoc : occList purchases S with
              | nil => exact absurd hoc this
              | cons a b => simp
            exact ⟨hocc, hsorted, hlen, max_le_iff.mpr ⟨hsig, hone⟩⟩
          · rw [if_neg hpred] at hl
            simp at hl
      · intro S hsorted hlen hcount
        -- build the genFrom witness from the head decomposition of S
        cases hS : S with
        | nil => rw [hS] at hlen; simp at hlen; omega
        | cons x T =>
          subst hS
          have hxT : ∀ y ∈ T, x < y := (List.sorted_cons.mp hsorted).1
          have hTsort : List.Sorted (· < ·) T := (List.sorted_cons.mp hsorted).2
          have hTlen : T.length = k - 1 := by
            simp only [List.length_cons] at hlen
            omega
          have hTcount : max sigma 1 ≤ trueCount purchases T :=
            le_trans hcount (trueCount_mono purchases (List.subset_cons_self x T))
          obtain ⟨lT, hlT⟩ : ∃ l, lookupKey dk1 T = some l :=
            Option.isSome_iff_exists.mp (hk1comp T hTsort hTlen hTcount)
          have hxm : x ∉ T := fun hc => lt_irrefl x (hxT x hc)
          have hins : insertItem x T = x :: T := insertItem_head hxT
          have hxkey : hasKey (levelD si 1) [x] = true := by
            unfold hasKey
            rw [hlevD1]
            apply h1comp [x] (List.sorted_singleton x) rfl
            exact le_trans hcount
              (trueCount_mono purchases (by
                intro a ha
                rw [List.mem_singleton] at ha
                rw [ha]
                exact List.mem_cons_self x T))
          have hoccne : occList purchases (x :: T) ≠ [] := by
            have h1 : 1 ≤ trueCount purchases (x :: T) :=
              le_trans (le_max_right sigma 1) hcount
            unfold trueCount at h1
            cases hoc : occList purchases (x :: T) with
            | nil => rw [hoc] at h1; simp at h1
            | cons a b => simp
          have hgen : genFrom purchases si (levelD si (k - 1)) (x :: T) := by
            refine ⟨(T, lT), ?_, ⟨⟨x, List.mem_cons_self x T, hxm, hxkey, hins.symm⟩,
              hoccne⟩⟩
            rw [hlevD]
            exact mem_of_lookup hlT
          have hgoodv : superset_potentially_good si (x :: T) (min mcs k) = true := by
            apply (superset_potentially_good_iff si (x :: T) (min mcs k)).mpr
            intro c h2c hcl T' hsub hlenT'
            obtain ⟨dc, hdc⟩ : ∃ d, lookupLevel si c = some d := by
              apply Option.isSome_iff_exists.mp
              apply (mem_sizeKeys_iff_lookup si c).mp
              rw [hsk, List.mem_range'_1]
              have : c < k := lt_of_lt_of_le hcl (min_le_right mcs k)
              omega
            obtain ⟨-, -, hccomp⟩ := hgood _ _ hdc
            have hT'sort : List.Sorted (· < ·) T' := hsorted.sublist hsub
            have hT'count : max sigma 1 ≤ trueCount purchases T' :=
              le_trans hcount (trueCount_mono purchases hsub.subset)
            unfold hasKey
            have hlevDc : levelD si c = dc := by unfold levelD; rw [hdc]; rfl
            rw [hlevDc]
            exact hccomp T' hT'sort hlenT' hT'count
          obtain ⟨lS, hlS⟩ : ∃ l, lookupKey B (x :: T) = some l :=
            Option.isSome_iff_exists.mp (hcomp (x :: T) hgen hgoodv)
          obtain ⟨-, -, hocc⟩ := hsound (x :: T) lS hlS
          have hpred : (!decide (lS.length < sigma)) = true := by
            have : sigma ≤ lS.length := by
              rw [hocc]
              exact le_trans (le_max_left sigma 1) hcount
            simp only [Bool.not_eq_eq_eq_not, Bool.not_true, decide_eq_false_iff_not,
              Nat.not_lt]
            exact this
          rw [lookupKey_filter hnodup]
          simp only [hlS]
          rw [if_pos hpred]
          rfl
    · obtain ⟨d', hd'⟩ : ∃ d', lookupLevel si j = some d' := by
        rw [hothers j hjk] at hj
        cases hl : lookupLevel si j with
        | none => rw [hl] at hj; simp at hj
        | some d' => exact ⟨d', rfl⟩
      have : d = d' := by
        rw [hothers j hjk, hd'] at hj
        have hj' : some (if j = k then
            d'.filter (fun e => !decide (e.2.length < sigma)) else d') = some d := hj
        rw [if_neg hjk] at hj'
        exact (Option.some.inj hj').symm
      subst this
      exact hgood _ _ hd'

/-! ## The base case: the pruned size-1 table is good -/

theorem seed_pruned_good (purchases : List (List ℕ)) (sigma : ℕ)
    (hn : ∀ p ∈ purchases, p.Nodup) :
    goodTable purchases sigma 1
      (prune_subsets sigma (count_size_one_subsets purchases)) := by
  have hseednodup : (keys (seedFrom [] 0 purchases)).Nodup :=
    keys_nodup_seedFrom purchases 0 [] List.nodup_nil
  have hmax : maxKey (count_size_one_subsets purchases) = 1 := rfl
  constructor
  · rw [sizeKeys_prune]
    rfl
  · intro j d hj
    rw [lookupLevel_prune, hmax] at hj
    have hlook : lookupLevel (count_size_one_subsets purchases) j =
        if 1 = j then some (seedFrom [] 0 purchases) else none := rfl
    rw [hlook] at hj
    by_cases hj1 : 1 = j
    · rw [if_pos hj1] at hj
      have hj' : some (if j = 1 then
          (seedFrom [] 0 purchases).filter (fun e => !decide (e.2.length < sigma))
          else seedFrom [] 0 purchases) = some d := hj
      rw [if_pos hj1.symm] at hj'
      obtain rfl : (seedFrom [] 0 purchases).filter
          (fun e => !decide (e.2.length < sigma)) = d := Option.some.inj hj'
      subst hj1
      refine ⟨hseednodup.sublist (keys_filter_sublist _ _), ?_, ?_⟩
      · intro S l hl
        rw [lookupKey_filter hseednodup] at hl
        cases hm : lookupKey (seedFrom [] 0 purchases) S with
        | none => rw [hm] at hl; simp at hl
        | some l₀ =>
          simp only [hm] at hl
          by_cases hpred : (!decide (l₀.length < sigma)) = true
          · rw [if_pos hpred] at hl
            obtain rfl : l₀ = l := by injection hl
            rw [seed_char purchases hn S] at hm
            by_cases hc : S.length = 1 ∧ occList purchases S ≠ []
            · rw [if_pos hc] at hm
              obtain rfl : occList purchases S = l₀ := Option.some.inj hm
              obtain ⟨x, hx⟩ := List.length_eq_one.mp hc.1
              have hsig : sigma ≤ (occList purchases S).length := by
                simp only [Bool.not_eq_eq_eq_not, Bool.not_true,
                  decide_eq_false_iff_not, Nat.not_lt] at hpred
                exact hpred
              have hone : 1 ≤ (occList purchases S).length := by
                cases hoc : occList purchases S with
                | nil => exact absurd hoc hc.2
                | cons a b => simp
              exact ⟨rfl, by rw [hx]; exact List.sorted_singleton x, hc.1,
                max_le_iff.mpr ⟨hsig, hone⟩⟩
            · rw [if_neg hc] at hm
              exact absurd hm (by simp)
          · rw [if_neg hpred] at hl
            simp at hl
      · intro S hsorted hlen hcount
        have hone : occList purchases S ≠ [] := by
          have h1 : 1 ≤ trueCount purchases S :=
            le_trans (le_max_right sigma 1) hcount
          unfold trueCount at h1
          cases hoc : occList purchases S with
          | nil => rw [hoc] at h1; simp at h1
          | cons a b => simp
        have hm : lookupKey (seedFrom [] 0 purchases) S =
            some (occList purchases S) := by
          rw [seed_char purchases hn S, if_pos ⟨hlen, hone⟩]
        have hpred : (!decide ((occList purchases S).length < sigma)) = true := by
          simp only [Bool.not_eq_eq_eq_not, Bool.not_true, decide_eq_false_iff_not,
            Nat.not_lt]
          exact le_trans (le_max_left sigma 1) hcount
        rw [lookupKey_filter hseednodup]
        simp only [hm]
        rw [if_pos hpred]
        rfl
    · rw [if_neg hj1] at hj
      simp at hj

/-! ## The level-wise loop -/

theorem runLevels_cons (purchases : List (List ℕ)) (mcs sigma k : ℕ) (ks : List ℕ)
    (si : SubsetsIndices) :
    runLevels purchases mcs sigma (k :: ks) si =
      if (levelD (prune_subsets sigma (count_subsets_of_size purchases mcs k si))
          k).length = 0
      then prune_subsets sigma (count_subsets_of_size purchases mcs k si)
      else runLevels purchases mcs sigma ks
        (prune_subsets sigma (count_subsets_of_size purchases mcs k si)) := rfl

theorem lookupLevel_build_other (purchases : List (List ℕ)) (mcs k : ℕ)
    (si : SubsetsIndices) (j : ℕ) (hj : j ≠ k) :
    lookupLevel (count_subsets_of_size purchases mcs k si) j = lookupLevel si j := by
  unfold count_subsets_of_size
  rw [lookupLevel_setLevel, if_neg hj]

theorem lookupLevel_prune_other (sigma : ℕ) (si : SubsetsIndices) (j : ℕ)
    (hj : j ≠ maxKey si) :
    lookupLevel (prune_subsets sigma si) j = lookupLevel si j := by
  rw [lookupLevel_prune]
  cases lookupLevel si j <;> simp [hj]

theorem prune_build_other (purchases : List (List ℕ)) (si : SubsetsIndices)
    (mcs sigma k j : ℕ) (hk1 : 1 ≤ k)
    (hsk : sizeKeys si = List.range' 1 (k - 1)) (hj : j ≠ k) :
    lookupLevel (prune_subsets sigma (count_subsets_of_size purchases mcs k si)) j =
      lookupLevel si j := by
  have hknone : lookupLevel si k = none := by
    apply lookupLevel_eq_none_of_not_mem
    rw [hsk, List.mem_range'_1]
    omega
  have hskb : sizeKeys (count_subsets_of_size purchases mcs k si) =
      List.range' 1 k := by
    unfold count_subsets_of_size
    rw [sizeKeys_setLevel_fresh _ _ _ hknone, hsk]
    exact range'_one_concat hk1
  have hmaxb := maxKey_range' k hk1 _ hskb
  rw [lookupLevel_prune_other sigma _ j (by rw [hmaxb]; exact hj),
    lookupLevel_build_other purchases mcs k si j hj]

theorem runLevels_master (purchases : List (List ℕ)) (mcs sigma : ℕ) :
    ∀ (cnt L : ℕ) (si : SubsetsIndices), 1 ≤ L →
      goodTable purchases sigma L si →
      (∀ j d, lookupLevel si j = some d → 1 < j → d ≠ []) →
      ∃ L', L ≤ L' ∧ L' ≤ L + cnt ∧
        goodTable purchases sigma L'
          (runLevels purchases mcs sigma (List.range' (L + 1) cnt) si) ∧
        (∀ j d, lookupLevel
            (runLevels purchases mcs sigma (List.range' (L + 1) cnt) si) j = some d →
          1 < j → j < L' → d ≠ []) ∧
        (∀ j, L < j → j < L' → freqAt purchases (max sigma 1) j) ∧
        (L' < L + cnt → ¬ freqAt purchases (max sigma 1) L') ∧
        (cnt ≠ 0 → L + 1 ≤ L') := by
  intro cnt
  induction cnt with
  | zero =>
    intro L si hL hgt hne
    refine ⟨L, le_refl L, by omega, hgt, ?_, ?_, ?_, ?_⟩
    · intro j d hj h1 hjL
      exact hne j d hj h1
    · intro j h1 h2
      omega
    · intro h
      omega
    · intro h
      exact absurd rfl h
  | succ cnt ih =>
    intro L si hL hgt hne
    have hr : List.range' (L + 1) (cnt + 1) = (L + 1) :: List.range' (L + 2) cnt := rfl
    rw [hr, runLevels_cons]
    have hgt' : goodTable purchases sigma (L + 1)
        (prune_subsets sigma (count_subsets_of_size purchases mcs (L + 1) si)) :=
      pruned_build_good purchases si mcs sigma (L + 1) (by omega) hgt
    obtain ⟨dT, hdT⟩ : ∃ d, lookupLevel
        (prune_subsets sigma (count_subsets_of_size purchases mcs (L + 1) si)) (L + 1) =
        some d := by
      apply Option.isSome_iff_exists.mp
      apply (mem_sizeKeys_iff_lookup _ _).mp
      rw [hgt'.1, List.mem_range'_1]
      omega
    have hdTlev : levelD
        (prune_subsets sigma (count_subsets_of_size purchases mcs (L + 1) si)) (L + 1) =
        dT := by
      unfold levelD
      rw [hdT]
      rfl
    obtain ⟨hTnodup, hTsound, hTcomp⟩ := hgt'.2 (L + 1) dT hdT
    have hoth : ∀ j, j ≠ L + 1 → lookupLevel
        (prune_subsets sigma (count_subsets_of_size purchases mcs (L + 1) si)) j =
        lookupLevel si j := by
      intro j hj
      exact prune_build_other purchases si mcs sigma (L + 1) j (by omega)
        (by simpa using hgt.1) hj
    by_cases hstop : (levelD
        (prune_subsets sigma (count_subsets_of_size purchases mcs (L + 1) si))
        (L + 1)).length = 0
    · rw [if_pos hstop]
      have hdTnil : dT = [] := by
        rw [hdTlev] at hstop
        exact List.length_eq_zero.mp hstop
      refine ⟨L + 1, by omega, by omega, hgt', ?_, ?_, ?_, ?_⟩
      · intro j d hj h1 hjL
        have hj' : j ≠ L + 1 := by omega
        rw [hoth j hj'] at hj
        exact hne j d hj h1
      · intro j h1 h2
        omega
      · intro _
        rintro ⟨S, hsort, hlen, hcount⟩
        have := hTcomp S hsort hlen hcount
        rw [hdTnil] at this
        simp [lookupKey] at this
      · intro _
        omega
    · rw [if_neg hstop]
      have hne' : ∀ j d, lookupLevel
          (prune_subsets sigma (count_subsets_of_size purchases mcs (L + 1) si)) j =
          some d → 1 < j → d ≠ [] := by
        intro j d hj h1
        by_cases hj' : j = L + 1
        · subst hj'
          rw [hdT] at hj
          obtain rfl : dT = d := Option.some.inj hj
          intro hc
          rw [hdTlev] at hstop
          exact hstop (by rw [hc]; rfl)
        · rw [hoth j hj'] at hj
          exact hne j d hj h1
      obtain ⟨L', hL1, hL2, hgt'', hmid, hfreq, hlast, -⟩ :=
        ih (L + 1) _ (by omega) hgt' hne'
      refine ⟨L', by omega, by omega, hgt'', hmid, ?_, ?_, fun _ => by omega⟩
      · intro j h1 h2
        by_cases hj : j = L + 1
        · subst hj
          have hdTne : dT ≠ [] := by
            intro hc
            rw [hdTlev] at hstop
            exact hstop (by rw [hc]; rfl)
          obtain ⟨e, he⟩ := List.exists_mem_of_ne_nil dT hdTne
          obtain ⟨hocc, hsort, hlen, hcnt⟩ :=
            hTsound e.1 e.2 (lookup_of_mem_nodup hTnodup he)
          refine ⟨e.1, hsort, hlen, ?_⟩
          unfold trueCount
          rw [← hocc]
          exact hcnt
        · exact hfreq j (by omega) h2
      · intro h
        exact hlast (by omega)

/-! ## The whole engine run -/

theorem run_engine_master (purchases : List (List ℕ)) (mcs sigma : ℕ)
    (hn : ∀ p ∈ purchases, p.Nodup) (hne : purchases ≠ []) :
    ∃ si L m, max_purchase_size purchases = some m ∧
      run_engine purchases mcs sigma = some si ∧
      1 ≤ L ∧ L ≤ 1 + (m - 2) ∧
      goodTable purchases sigma L si ∧
      (∀ j d, lookupLevel si j = some d → 1 < j → j < L → d ≠ []) ∧
      (∀ j, 1 < j → j < L → freqAt purchases (max sigma 1) j) ∧
      (L < 1 + (m - 2) → ¬ freqAt purchases (max sigma 1) L) ∧
      (m - 2 ≠ 0 → 2 ≤ L) := by
  obtain ⟨m, hm⟩ : ∃ m, max_purchase_size purchases = some m := by
    cases purchases with
    | nil => exact absurd rfl hne
    | cons p ps => exact ⟨_, rfl⟩
  have hbase := seed_pruned_good purchases sigma hn
  have hbase_ne : ∀ j d,
      lookupLevel (prune_subsets sigma (count_size_one_subsets purchases)) j =
        some d → 1 < j → d ≠ [] := by
    intro j d hj h1
    have hjm : j ∈ sizeKeys (prune_subsets sigma (count_size_one_subsets purchases)) :=
      (mem_sizeKeys_iff_lookup _ j).mpr (by rw [hj]; rfl)
    rw [hbase.1, List.mem_range'_1] at hjm
    omega
  obtain ⟨L, h1, h2, hgt, hmid, hfreq, hlast, hpos⟩ :=
    runLevels_master purchases mcs sigma (m - 2) 1 _ (le_refl 1) hbase hbase_ne
  refine ⟨_, L, m, hm, ?_, h1, by omega, hgt, hmid, ?_, ?_, fun h => by omega⟩
  · unfold run_engine
    rw [hm]
  · intro j hj1 hj2
    exact hfreq j hj1 hj2
  · intro h
    exact hlast (by omega)

theorem goodLevel_det {purchases : List (List ℕ)} {sp j : ℕ}
    {d₁ d₂ : SupportIndex} (h₁ : goodLevel purchases sp j d₁)
    (h₂ : goodLevel purchases sp j d₂) :
    ∀ S, lookupKey d₁ S = lookupKey d₂ S := by
  have key : ∀ (a b : SupportIndex), goodLevel purchases sp j a →
      goodLevel purchases sp j b → ∀ S l, lookupKey a S = some l →
      lookupKey b S = some l := by
    rintro a b ⟨-, hsa, -⟩ ⟨-, hsb, hcb⟩ S l hl
    obtain ⟨hocc, hsort, hlen, hcnt⟩ := hsa S l hl
    subst hocc
    have hct : sp ≤ trueCount purchases S := hcnt
    obtain ⟨l₂, hl₂⟩ := Option.isSome_iff_exists.mp (hcb S hsort hlen hct)
    obtain ⟨hocc₂, -, -, -⟩ := hsb S l₂ hl₂
    rw [hl₂, hocc₂]
  intro S
  cases h : lookupKey d₁ S with
  | some l => exact (key d₁ d₂ h₁ h₂ S l h).symm
  | none =>
    cases h' : lookupKey d₂ S with
    | none => rfl
    | some l =>
      have := key d₂ d₁ h₂ h₁ S l h'
      rw [h] at this
      exact absurd this (by simp)

theorem lookupLevel_of_mem_nodup : ∀ {si : SubsetsIndices}, (sizeKeys si).Nodup →
    ∀ {lv : ℕ × SupportIndex}, lv ∈ si → lookupLevel si lv.1 = some lv.2 := by
  intro si
  induction si with
  | nil => intro _ lv h; simp at h
  | cons f si ih =>
    intro hn lv hlv
    have hn' : f.1 ∉ sizeKeys si ∧ (sizeKeys si).Nodup := by
      rw [sizeKeys, List.map_cons, List.nodup_cons] at hn
      exact ⟨hn.1, hn.2⟩
    rcases List.mem_cons.mp hlv with rfl | hlv
    · rw [lookupLevel, if_pos rfl]
    · have hne : ¬ f.1 = lv.1 := by
        intro hc
        apply hn'.1
        rw [hc]
        exact List.mem_map.mpr ⟨lv, hlv, rfl⟩
      rw [lookupLevel, if_neg hne]
      exact ih hn'.2 hlv

theorem goodTable_vals {purchases : List (List ℕ)} {sigma L : ℕ}
    {si : SubsetsIndices} (h : goodTable purchases sigma L si) :
    ∀ lv ∈ si, ∀ e ∈ lv.2, e.2 = occList purchases e.1 := by
  intro lv hlv e he
  have hnd : (sizeKeys si).Nodup := by
    rw [h.1]
    exact List.nodup_range' 1 L
  obtain ⟨hknd, hsound, -⟩ := h.2 lv.1 lv.2 (lookupLevel_of_mem_nodup hnd hlv)
  exact (hsound e.1 e.2 (lookup_of_mem_nodup hknd he)).1

/-! ## Values in every intermediate engine state -/

theorem build_state_vals (purchases : List (List ℕ)) (si : SubsetsIndices)
    (mcs sigma L : ℕ) (hL : 1 ≤ L) (hgt : goodTable purchases sigma L si) :
    ∀ lv ∈ count_subsets_of_size purchases mcs (L + 1) si, ∀ e ∈ lv.2,
      e.2 = occList purchases e.1 := by
  obtain ⟨hsk, hgood⟩ := hgt
  obtain ⟨dk1, hdk1⟩ : ∃ d, lookupLevel si L = some d := by
    apply Option.isSome_iff_exists.mp
    apply (mem_sizeKeys_iff_lookup si L).mp
    rw [hsk, List.mem_range'_1]
    omega
  have hlevD : levelD si ((L + 1) - 1) = dk1 := by
    unfold levelD
    rw [show (L + 1) - 1 = L from rfl, hdk1]
    rfl
  obtain ⟨hk1nodup, hk1sound, -⟩ := hgood _ _ hdk1
  have hval : ∀ e ∈ levelD si ((L + 1) - 1), e.2 = occList purchases e.1 := by
    intro e he
    rw [hlevD] at he
    exact (hk1sound e.1 e.2 (lookup_of_mem_nodup hk1nodup he)).1
  obtain ⟨hsound, -, hnodup, hothers⟩ :=
    build_level_char purchases si mcs (L + 1) hval
  have hknone : lookupLevel si (L + 1) = none := by
    apply lookupLevel_eq_none_of_not_mem
    rw [hsk, List.mem_range'_1]
    omega
  have hskb : sizeKeys (count_subsets_of_size purchases mcs (L + 1) si) =
      List.range' 1 (L + 1) := by
    unfold count_subsets_of_size
    rw [sizeKeys_setLevel_fresh _ _ _ hknone, hsk]
    have := range'_one_concat (k := L + 1) (by omega)
    rw [show (L + 1) - 1 = L from rfl] at this
    exact this
  have houternodup : (sizeKeys (count_subsets_of_size purchases mcs (L + 1) si)).Nodup := by
    rw [hskb]
    exact List.nodup_range' 1 (L + 1)
  intro lv hlv e he
  have hlook := lookupLevel_of_mem_nodup houternodup hlv
  by_cases hj : lv.1 = L + 1
  · rw [hj] at hlook
    have hBlev : levelD (count_subsets_of_size purchases mcs (L + 1) si) (L + 1) =
        lv.2 := by
      unfold levelD
      rw [hlook]
      rfl
    rw [hBlev] at hnodup
    have hel : lookupKey lv.2 e.1 = some e.2 := lookup_of_mem_nodup hnodup he
    have hel' : lookupKey (levelD (count_subsets_of_size purchases mcs (L + 1) si)
        (L + 1)) e.1 = some e.2 := by
      rw [hBlev]
      exact hel
    exact (hsound e.1 e.2 hel').2.2
  · rw [lookupLevel_build_other purchases mcs (L + 1) si lv.1 hj] at hlook
    obtain ⟨hnod', hsound', -⟩ := hgood lv.1 lv.2 hlook
    exact (hsound' e.1 e.2 (lookup_of_mem_nodup hnod' he)).1

theorem trace_exact (purchases : List (List ℕ)) (mcs sigma : ℕ) :
    ∀ (cnt L : ℕ) (si : SubsetsIndices), 1 ≤ L →
      goodTable purchases sigma L si →
      ∀ st ∈ runLevelsTrace purchases mcs sigma (List.range' (L + 1) cnt) si,
      ∀ lv ∈ st, ∀ e ∈ lv.2, e.2 = occList purchases e.1 := by
  intro cnt
  induction cnt with
  | zero =>
    intro L si hL hgt st hst
    simp [runLevelsTrace] at hst
  | succ cnt ih =>
    intro L si hL hgt st hst
    have hr : List.range' (L + 1) (cnt + 1) = (L + 1) :: List.range' (L + 2) cnt := rfl
    rw [hr] at hst
    have htr : runLevelsTrace purchases mcs sigma
        ((L + 1) :: List.range' (L + 2) cnt) si =
        count_subsets_of_size purchases mcs (L + 1) si ::
        prune_subsets sigma (count_subsets_of_size purchases mcs (L + 1) si) ::
        (if (levelD (prune_subsets sigma
            (count_subsets_of_size purchases mcs (L + 1) si)) (L + 1)).length = 0
         then []
         else runLevelsTrace purchases mcs sigma (List.range' (L + 2) cnt)
           (prune_subsets sigma (count_subsets_of_size purchases mcs (L + 1) si))) :=
      rfl
    rw [htr] at hst
    have hgt' : goodTable purchases sigma (L + 1)
        (prune_subsets sigma (count_subsets_of_size purchases mcs (L + 1) si)) :=
      pruned_build_good purchases si mcs sigma (L + 1) (by omega) hgt
    rcases List.mem_cons.mp hst with rfl | hst
    · exact build_state_vals purchases si mcs sigma L hL hgt
    rcases List.mem_cons.mp hst with rfl | hst
    · exact goodTable_vals hgt'
    by_cases hstop : (levelD (prune_subsets sigma
        (count_subsets_of_size purchases mcs (L + 1) si)) (L + 1)).length = 0
    · rw [if_pos hstop] at hst
      simp at hst
    · rw [if_neg hstop] at hst
      exact ih (L + 1) _ (by omega) hgt' st hst

/-! ## Claim theorems (see RESULTS.json) -/

/-- C1: every itemset surviving the final pruning at any size has a recorded
membership-list length equal to the brute-force containment count over the
whole transaction list.  (Transactions are duplicate-free per the engine's
input contract: the loader collapses duplicates before the engine runs.) -/
theorem claim_C1 (purchases : List (List ℕ)) (mcs sigma : ℕ)
    (hn : ∀ p ∈ purchases, p.Nodup) (si : SubsetsIndices) (k : ℕ)
    (d : SupportIndex) (S : Itemset) (l : List ℕ)
    (hrun : run_engine purchases mcs sigma = some si)
    (hlev : lookupLevel si k = some d) (hkey : lookupKey d S = some l) :
    l.length = trueCount purchases S := by
  have hne : purchases ≠ [] := by
    intro hc
    subst hc
    rw [show run_engine [] mcs sigma = none from rfl] at hrun
    exact Option.noConfusion hrun
  obtain ⟨si', L, m, -, hrun', -, -, hgt, -, -, -, -⟩ :=
    run_engine_master purchases mcs sigma hn hne
  obtain rfl : si' = si := by rw [hrun] at hrun'; exact (Option.some.inj hrun').symm
  obtain ⟨-, hsound, -⟩ := hgt.2 k d hlev
  rw [(hsound S l hkey).1]
  rfl

/-- Witness for C1 on the run over `[[5]]` with `sigma = 1`. -/
theorem claim_C1_witness : ([0] : List ℕ).length = trueCount [[5]] [5] :=
  claim_C1 [[5]] 5 1 (by decide) [(1, [([5], [0])])] 1 [([5], [0])] [5] [0]
    (by rfl) (by rfl) (by rfl)

/-- C2: with the same transactions and the same `sigma`, the engine run with
`maxComboSize = 2` and the run with any `maxComboSize ≥ 2` succeed together
and produce extensionally identical Frequent Itemset Tables at every size
(Python compares dicts by contents, not entry order). -/
theorem claim_C2 (purchases : List (List ℕ)) (sigma mcs : ℕ)
    (hn : ∀ p ∈ purchases, p.Nodup) (hmcs : 2 ≤ mcs) :
    ((run_engine purchases 2 sigma).isSome = (run_engine purchases mcs sigma).isSome) ∧
    ∀ si₁ si₂, run_engine purchases 2 sigma = some si₁ →
      run_engine purchases mcs sigma = some si₂ → sameTables si₁ si₂ := by
  by_cases hne : purchases = []
  · subst hne
    refine ⟨rfl, ?_⟩
    intro si₁ si₂ h₁ h₂
    rw [show run_engine [] 2 sigma = none from rfl] at h₁
    exact Option.noConfusion h₁
  · obtain ⟨si₁, L₁, m₁, hm₁, hrun₁, hL₁a, hL₁b, hgt₁, -, hfreq₁, hlast₁, hpos₁⟩ :=
      run_engine_master purchases 2 sigma hn hne
    obtain ⟨si₂, L₂, m₂, hm₂, hrun₂, hL₂a, hL₂b, hgt₂, -, hfreq₂, hlast₂, hpos₂⟩ :=
      run_engine_master purchases mcs sigma hn hne
    obtain rfl : m₁ = m₂ := by rw [hm₁] at hm₂; exact Option.some.inj hm₂
    have hLeq : L₁ = L₂ := by
      by_contra hne'
      rcases Nat.lt_or_ge L₁ L₂ with hlt | hge
      · have hm2 : m₁ - 2 ≠ 0 := by omega
        have h2L₁ : 2 ≤ L₁ := hpos₁ hm2
        exact hlast₁ (by omega) (hfreq₂ L₁ (by omega) hlt)
      · rcases Nat.lt_or_ge L₂ L₁ with hlt | hge₂
        · have hm2 : m₁ - 2 ≠ 0 := by omega
          have h2L₂ : 2 ≤ L₂ := hpos₂ hm2
          exact hlast₂ (by omega) (hfreq₁ L₂ (by omega) hlt)
        · omega
    subst hLeq
    refine ⟨by rw [hrun₁, hrun₂]; rfl, ?_⟩
    intro t₁ t₂ h₁ h₂
    obtain rfl : si₁ = t₁ := by rw [hrun₁] at h₁; exact Option.some.inj h₁
    obtain rfl : si₂ = t₂ := by rw [hrun₂] at h₂; exact Option.some.inj h₂
    have hpres : ∀ j, (lookupLevel si₁ j).isSome ↔ (lookupLevel si₂ j).isSome := by
      intro j
      rw [← mem_sizeKeys_iff_lookup, ← mem_sizeKeys_iff_lookup, hgt₁.1, hgt₂.1]
    refine ⟨hpres, ?_⟩
    intro j S
    cases hk₁ : lookupLevel si₁ j with
    | none =>
      have hk₂ : lookupLevel si₂ j = none := by
        cases h : lookupLevel si₂ j with
        | none => rfl
        | some d =>
          have := (hpres j).mpr (by rw [h]; rfl)
          rw [hk₁] at this
          simp at this
      rw [hk₂]
    | some d₁ =>
      obtain ⟨d₂, hk₂⟩ : ∃ d₂, lookupLevel si₂ j = some d₂ :=
        Option.isSome_iff_exists.mp ((hpres j).mp (by rw [hk₁]; rfl))
      rw [hk₂]
      show lookupKey d₁ S = lookupKey d₂ S
      exact goodLevel_det (hgt₁.2 j d₁ hk₁) (hgt₂.2 j d₂ hk₂) S

/-- Witness for C2 at `maxComboSize` 2 vs 7. -/
theorem claim_C2_witness :
    (run_engine [[1, 2], [3]] 2 2).isSome = (run_engine [[1, 2], [3]] 7 2).isSome :=
  (claim_C2 [[1, 2], [3]] 2 7 (by decide) (by decide)).1

/-- C3: anti-monotonicity of the final table: if `S` survives at size `k > 1`
then every (k-1)-element subset of `S` (every sublist of its canonical form of
length `k-1`) is a key of the pruned table at size `k-1`, with a recorded
frequency at least that of `S`. -/
theorem claim_C3 (purchases : List (List ℕ)) (mcs sigma : ℕ)
    (hn : ∀ p ∈ purchases, p.Nodup) (si : SubsetsIndices) (k : ℕ)
    (d : SupportIndex) (S : Itemset) (l : List ℕ)
    (hrun : run_engine purchases mcs sigma = some si) (hk : 1 < k)
    (hlev : lookupLevel si k = some d) (hkey : lookupKey d S = some l) :
    ∀ T, List.Sublist T S → T.length = k - 1 →
      ∃ d' l', lookupLevel si (k - 1) = some d' ∧ lookupKey d' T = some l' ∧
        l.length ≤ l'.length := by
  have hne : purchases ≠ [] := by
    intro hc
    subst hc
    rw [show run_engine [] mcs sigma = none from rfl] at hrun
    exact Option.noConfusion hrun
  obtain ⟨si', L, m, -, hrun', -, -, hgt, -, -, -, -⟩ :=
    run_engine_master purchases mcs sigma hn hne
  obtain rfl : si' = si := by rw [hrun] at hrun'; exact (Option.some.inj hrun').symm
  obtain ⟨-, hsound, -⟩ := hgt.2 k d hlev
  obtain ⟨hocc, hsort, hlen, hcnt⟩ := hsound S l hkey
  have hkL : k ∈ sizeKeys si' := (mem_sizeKeys_iff_lookup si' k).mpr
    (by rw [hlev]; rfl)
  rw [hgt.1, List.mem_range'_1] at hkL
  obtain ⟨d', hd'⟩ : ∃ d', lookupLevel si' (k - 1) = some d' := by
    apply Option.isSome_iff_exists.mp
    apply (mem_sizeKeys_iff_lookup _ _).mp
    rw [hgt.1, List.mem_range'_1]
    omega
  obtain ⟨-, hsound', hcomp'⟩ := hgt.2 (k - 1) d' hd'
  intro T hTsub hTlen
  have hTsort : List.Sorted (· < ·) T := hsort.sublist hTsub
  have htS : max sigma 1 ≤ trueCount purchases S := by
    unfold trueCount
    rw [← hocc]
    exact hcnt
  have hTcnt : max sigma 1 ≤ trueCount purchases T :=
    le_trans htS (trueCount_mono purchases hTsub.subset)
  obtain ⟨l', hl'⟩ := Option.isSome_iff_exists.mp (hcomp' T hTsort hTlen hTcnt)
  obtain ⟨hocc', -, -, -⟩ := hsound' T l' hl'
  refine ⟨d', l', hd', hl', ?_⟩
  rw [hocc, hocc']
  exact trueCount_mono purchases hTsub.subset

/-- Witness for C3 on the run over `[[1,2,3],[1,2,4]]` with `sigma = 2`,
surviving pair `{1,2}` and its subset `{1}`. -/
theorem claim_C3_witness :
    ∃ d' l', lookupLevel [(1, [([1], [0, 1]), ([2], [0, 1])]),
        (2, [([1, 2], [0, 1])])] (2 - 1) = some d' ∧
      lookupKey d' [1] = some l' ∧ ([0, 1] : List ℕ).length ≤ l'.length :=
  claim_C3 [[1, 2, 3], [1, 2, 4]] 5 2 (by decide)
    [(1, [([1], [0, 1]), ([2], [0, 1])]), (2, [([1, 2], [0, 1])])] 2
    [([1, 2], [0, 1])] [1, 2] [0, 1] (by decide) (by decide) (by rfl) (by rfl)
    [1] (by decide) (by decide)

/-- C4: during `count_subsets_of_size` at size `k`, a candidate superset with
no entry yet is admitted — entry created, current transaction index recorded —
if and only if for every size `c` from 2 up to but excluding `min(maxComboSize, k)`
every `c`-element subset of the candidate is a key of the table at size `c`;
otherwise the candidate is not added for this transaction.  (The enumeration
in the code short-circuits at the first absent subset via the two `break`s;
`List.all` is the same short-circuiting loop.) -/
theorem claim_C4 (si : SubsetsIndices) (mcs k : ℕ) (subset : Itemset) (pidx : ℕ)
    (cur : SupportIndex) (item : ℕ)
    (hnotin : item ∉ subset) (hfreq : hasKey (levelD si 1) [item] = true)
    (hnew : lookupKey cur (insertItem item subset) = none) :
    (subsetsChecked si (insertItem item subset) (min mcs k) →
      lookupKey (processItem si mcs k subset pidx cur item) (insertItem item subset) =
        some [pidx]) ∧
    (¬ subsetsChecked si (insertItem item subset) (min mcs k) →
      lookupKey (processItem si mcs k subset pidx cur item) (insertItem item subset) =
        none) := by
  have hgood := superset_potentially_good_iff si (insertItem item subset) (min mcs k)
  constructor
  · intro hch
    unfold processItem
    rw [if_neg hnotin, if_neg (not_not_intro hfreq)]
    simp only [hnew]
    rw [if_pos (hgood.mpr hch), lookupKey_append_single, hnew]
    simp
  · intro hch
    unfold processItem
    rw [if_neg hnotin, if_neg (not_not_intro hfreq)]
    simp only [hnew]
    rw [if_neg fun hg => hch (hgood.mp hg)]
    exact hnew

/-- Witness for C4 at a concrete input: level-1 table `{1: [0], 2: [0]}`,
candidate `{1,2}` at `k = 2` (no subset sizes to check), transaction 0. -/
theorem claim_C4_witness :
    lookupKey (processItem [(1, [([1], [0]), ([2], [0])])] 5 2 [1] 0 [] 2) [1, 2] =
      some [0] := by
  have h := (claim_C4 [(1, [([1], [0]), ([2], [0])])] 5 2 [1] 0 [] 2
    (by decide) (by rfl) (by rfl)).1
  exact h fun c h2 hlt T _ _ => absurd (lt_of_le_of_lt h2 hlt) (by decide)

/-- C5: `prune_subsets` leaves every size other than the current maximum
unchanged, never changes which sizes are present, and at the current maximum
size keeps exactly the itemsets whose membership-list length reaches `sigma`
(the `minSupport`): a key of length exactly `sigma` survives with its list
unchanged, a key of length `sigma - 1` is removed, and no key is added. -/
theorem claim_C5 (si : SubsetsIndices) (sigma : ℕ) :
    (∀ j, j ≠ maxKey si → lookupLevel (prune_subsets sigma si) j = lookupLevel si j) ∧
    (∀ j, (lookupLevel (prune_subsets sigma si) j).isSome = (lookupLevel si j).isSome) ∧
    (∀ d, lookupLevel si (maxKey si) = some d → (keys d).Nodup →
      ∀ S, lookupKey (levelD (prune_subsets sigma si) (maxKey si)) S =
        match lookupKey d S with
        | some l => if sigma ≤ l.length then some l else none
        | none => none) ∧
    (∀ d S l, lookupLevel si (maxKey si) = some d → (keys d).Nodup →
      lookupKey d S = some l → l.length = sigma →
      lookupKey (levelD (prune_subsets sigma si) (maxKey si)) S = some l) ∧
    (∀ d S l, lookupLevel si (maxKey si) = some d → (keys d).Nodup →
      lookupKey d S = some l → l.length + 1 = sigma →
      lookupKey (levelD (prune_subsets sigma si) (maxKey si)) S = none) := by
  have hchar : ∀ d, lookupLevel si (maxKey si) = some d → (keys d).Nodup →
      ∀ S, lookupKey (levelD (prune_subsets sigma si) (maxKey si)) S =
        match lookupKey d S with
        | some l => if sigma ≤ l.length then some l else none
        | none => none := by
    intro d hd hn S
    unfold levelD
    rw [lookupLevel_prune, hd]
    simp only [Option.map_some', Option.map_some, Option.getD_some, eq_self_iff_true,
      if_true]
    rw [lookupKey_filter hn]
    cases hl : lookupKey d S with
    | none => rfl
    | some l =>
      show (if (!decide (l.length < sigma)) = true then some l else none) =
        if sigma ≤ l.length then some l else none
      by_cases hs : sigma ≤ l.length
      · have hlt : ¬ l.length < sigma := by omega
        simp [hs, hlt]
      · have hlt : l.length < sigma := by omega
        simp [hs, hlt]
  refine ⟨?_, ?_, hchar, ?_, ?_⟩
  · intro j hj
    rw [lookupLevel_prune]
    cases hl : lookupLevel si j with
    | none => rfl
    | some d => simp [hj]
  · intro j
    rw [lookupLevel_prune]
    cases hl : lookupLevel si j <;> rfl
  · intro d S l hd hn hkey hlen
    rw [hchar d hd hn S, hkey]
    simp [hlen]
  · intro d S l hd hn hkey hlen
    rw [hchar d hd hn S, hkey]
    have : ¬ sigma ≤ l.length := by omega
    simp [this]

/-- Witness for C5 at a concrete table `{1: {[1]: [0,1], [2]: [0]}}` with
`sigma = 2`: the key with count 2 survives unchanged, the key with count 1
is removed. -/
theorem claim_C5_witness :
    lookupKey (levelD (prune_subsets 2 [(1, [([1], [0, 1]), ([2], [0])])]) 1) [1] =
        some [0, 1] ∧
    lookupKey (levelD (prune_subsets 2 [(1, [([1], [0, 1]), ([2], [0])])]) 1) [2] =
        none := by
  have h := (claim_C5 [(1, [([1], [0, 1]), ([2], [0])])] 2).2.2.1
  constructor
  · have h1 := h [([1], [0, 1]), ([2], [0])] (by rfl) (by decide) [1]
    exact h1.trans (by decide)
  · have h2 := h [([1], [0, 1]), ([2], [0])] (by rfl) (by decide) [2]
    exact h2.trans (by decide)

/-- C7 (amended): on a nonempty transaction sequence all of whose transactions
are empty (maximum transaction size zero) the engine returns the table
`{1: {}}` without attempting further levels; on the *empty* transaction
sequence the driver raises (`max()` of an empty sequence, line 294) instead of
returning a table. -/
theorem claim_C7 :
    (∀ (purchases : List (List ℕ)) (mcs sigma : ℕ), purchases ≠ [] →
      (∀ p ∈ purchases, p = []) → run_engine purchases mcs sigma = some [(1, [])]) ∧
    (∀ mcs sigma : ℕ, run_engine [] mcs sigma = none) := by
  constructor
  · intro purchases mcs sigma hne hall
    unfold run_engine
    rw [max_purchase_size_zeros hall hne]
    unfold count_size_one_subsets
    rw [seed_zeros purchases [] 0 hall]
    have hpr : prune_subsets sigma [(1, ([] : SupportIndex))] = [(1, [])] := by
      unfold prune_subsets maxKey
      simp
    rw [hpr]
    rfl
  · intro mcs sigma
    rfl

/-- C6 (amended): the level-wise loop attempts only sizes `k` with
`2 ≤ k < maxPurchaseSize` (never the maximum itself), stops at the first loop
level with zero survivors (any present level with a larger present level
above it and size > 1 is nonempty), and terminates; on a single transaction
with a single item and `minSupport = 1` it produces just the size-1 table.
The early stop applies only to loop levels `k ≥ 2`: an empty pruned size-1
table does not stop the loop from attempting size 2 (see the
counterexample). -/
theorem claim_C6 :
    (∀ (purchases : List (List ℕ)) (mcs sigma m : ℕ) (si : SubsetsIndices),
      (∀ p ∈ purchases, p.Nodup) →
      max_purchase_size purchases = some m →
      run_engine purchases mcs sigma = some si →
      (∀ j ∈ sizeKeys si, j = 1 ∨ (2 ≤ j ∧ j < m)) ∧
      (∀ j j' d d', lookupLevel si j = some d → lookupLevel si j' = some d' →
        1 < j → j < j' → d ≠ [])) ∧
    (∀ (x mcs : ℕ), run_engine [[x]] mcs 1 = some [(1, [([x], [0])])]) := by
  constructor
  · intro purchases mcs sigma m si hn hm hrun
    have hne : purchases ≠ [] := by
      intro hc
      subst hc
      rw [show max_purchase_size [] = none from rfl] at hm
      exact Option.noConfusion hm
    obtain ⟨si', L, m', hm', hrun', hL1, hL2, hgt, hmid, -, -, -⟩ :=
      run_engine_master purchases mcs sigma hn hne
    obtain rfl : m' = m := by rw [hm] at hm'; exact (Option.some.inj hm').symm
    obtain rfl : si' = si := by rw [hrun] at hrun'; exact (Option.some.inj hrun').symm
    constructor
    · intro j hj
      rw [hgt.1, List.mem_range'_1] at hj
      omega
    · intro j j' d d' hd hd' h1 hjj
      have hj'mem : j' ∈ sizeKeys si' :=
        (mem_sizeKeys_iff_lookup si' j').mpr (by rw [hd']; rfl)
      rw [hgt.1, List.mem_range'_1] at hj'mem
      exact hmid j d hd h1 (by omega)
  · intro x mcs
    rfl

/-- Witness for C6: on `[[1,2,3]]` with `sigma = 4` the final keys are
`{1, 2}`, both admissible sizes, and the single-item run is exercised. -/
theorem claim_C6_witness :
    (∀ j ∈ sizeKeys [(1, ([] : SupportIndex)), (2, ([] : SupportIndex))],
      j = 1 ∨ (2 ≤ j ∧ j < 3)) ∧
    run_engine [[9]] 4 1 = some [(1, [([9], [0])])] :=
  ⟨(claim_C6.1 [[1, 2, 3]] 5 4 3 [(1, []), (2, [])] (by decide) (by rfl)
      (by decide)).1,
    claim_C6.2 9 4⟩

/-- Counterexample to C6 as stated: on `[[1,2,3]]` with `sigma = 4` the
pruned size-1 level is empty (zero surviving itemsets), yet the engine still
attempts size 2 — the final table contains the key 2 — contradicting "stops
early the first time a pruned level contains zero surviving itemsets, never
attempting any larger size". -/
theorem claim_C6_counterexample :
    run_engine [[1, 2, 3]] 5 4 = some [(1, []), (2, [])] := by decide

/-- Counterexample to C7 as stated: on the empty transaction sequence the
engine does not return an empty size-1 table — the run fails (uncaught
`ValueError` from `max([])`). -/
theorem claim_C7_counterexample : run_engine [] 5 4 = none := rfl

/-- Witness for C7 at the concrete degenerate input `[[], []]`. -/
theorem claim_C7_witness : run_engine [[], []] 5 4 = some [(1, [])] :=
  claim_C7.1 [[], []] 5 4 (by decide) (by decide)

/-- C8 (amended): the engine performs no validation of its parameters.  A run
never rejects any configuration (the only failure is the empty input); with
`minSupport < 1` (i.e. `sigma = 0`; negative Python values behave identically)
pruning removes nothing; with `maxComboSize < 2` the bounded subset
verification is skipped entirely and every candidate passes it. -/
theorem claim_C8 :
    (∀ (purchases : List (List ℕ)) (mcs sigma : ℕ), purchases ≠ [] →
      (run_engine purchases mcs sigma).isSome = true) ∧
    (∀ si : SubsetsIndices, prune_subsets 0 si = si) ∧
    (∀ mcs, mcs < 2 → ∀ (si : SubsetsIndices) (S : Itemset) (k : ℕ),
      superset_potentially_good si S (min mcs k) = true) := by
  refine ⟨?_, prune_zero, ?_⟩
  · intro purchases mcs sigma hne
    cases purchases with
    | nil => exact absurd rfl hne
    | cons p ps => rfl
  · intro mcs hlt si S k
    unfold superset_potentially_good
    have h : min mcs k - 2 = 0 := by omega
    rw [h]
    rfl

/-- Witness for C8: a run with the invalid configuration
`minSupport = 0`, `maxComboSize = 1` still returns a table. -/
theorem claim_C8_witness :
    (run_engine [[1]] 1 0).isSome = true ∧
    prune_subsets 0 [(1, [([1], [0])])] = [(1, [([1], [0])])] ∧
    superset_potentially_good [] [1, 2] (min 1 3) = true :=
  ⟨claim_C8.1 [[1]] 1 0 (by decide), claim_C8.2.1 _, claim_C8.2.2 1 (by decide) [] [1, 2] 3⟩

/-- Counterexample to C8 as stated: invoked with `minSupport = 0 < 1` and
`maxComboSize = 1 < 2` the engine does not reject the configuration — it runs
the full search and returns a table. -/
theorem claim_C8_counterexample : run_engine [[1]] 1 0 = some [(1, [([1], [0])])] := by
  rfl

/-- C9 (amended): the final table's size keys are exactly the contiguous
range `{1, …, L}` for some `L ≥ 1`, and every size strictly between 1 and `L`
maps to a nonempty index; the topmost key (and, when the singleton level died,
also key 1) may map to an empty index left behind by the stopping level (see
the counterexample). -/
theorem claim_C9 (purchases : List (List ℕ)) (mcs sigma : ℕ)
    (hn : ∀ p ∈ purchases, p.Nodup) (si : SubsetsIndices)
    (hrun : run_engine purchases mcs sigma = some si) :
    ∃ L, 1 ≤ L ∧ sizeKeys si = List.range' 1 L ∧
      ∀ j d, lookupLevel si j = some d → 1 < j → j < L → d ≠ [] := by
  have hne : purchases ≠ [] := by
    intro hc
    subst hc
    rw [show run_engine [] mcs sigma = none from rfl] at hrun
    exact Option.noConfusion hrun
  obtain ⟨si', L, m, -, hrun', hL1, -, hgt, hmid, -, -, -⟩ :=
    run_engine_master purchases mcs sigma hn hne
  obtain rfl : si' = si := by rw [hrun] at hrun'; exact (Option.some.inj hrun').symm
  exact ⟨L, hL1, hgt.1, hmid⟩

/-- Witness for C9 on the run over `[[5]]`. -/
theorem claim_C9_witness :
    ∃ L, 1 ≤ L ∧ sizeKeys [(1, [([5], [0])])] = List.range' 1 L ∧
      ∀ j d, lookupLevel [(1, [([5], [0])])] j = some d → 1 < j → j < L →
        d ≠ [] :=
  claim_C9 [[5]] 5 1 (by decide) [(1, [([5], [0])])] (by rfl)

/-- Counterexample to C9 as stated: on `[[1,2,3,4],[1,5,6,7]]` with
`sigma = 2` the largest size producing a frequent itemset is 1, yet the final
table's key set is `{1, 2}` and key 2 maps to an empty index. -/
theorem claim_C9_counterexample :
    run_engine [[1, 2, 3, 4], [1, 5, 6, 7]] 5 2 =
      some [(1, [([1], [0, 1])]), (2, [])] := by decide

/-- C10: in every Support Index the engine builds — after seeding, after each
`count_subsets_of_size` and after each `prune_subsets` — every membership
list is strictly increasing in transaction index, and hence duplicate-free,
whenever the transactions are duplicate-free and sorted. -/
theorem claim_C10 (purchases : List (List ℕ)) (mcs sigma : ℕ)
    (hn : ∀ p ∈ purchases, p.Nodup)
    (hs : ∀ p ∈ purchases, List.Sorted (· < ·) p) :
    ∀ st ∈ engineStates purchases mcs sigma, ∀ lv ∈ st, ∀ e ∈ lv.2,
      List.Chain' (· < ·) e.2 ∧ e.2.Nodup := by
  intro st hst lv hlv e he
  suffices hocc : e.2 = occList purchases e.1 by
    rw [hocc]
    exact ⟨occList_chain' purchases e.1, occList_nodup purchases e.1⟩
  unfold engineStates at hst
  cases hm : max_purchase_size purchases with
  | none =>
    rw [hm] at hst
    simp at hst
  | some m =>
    rw [hm] at hst
    rcases List.mem_cons.mp hst with rfl | hst
    · -- the seed state
      have hlv' : lv = (1, seedFrom [] 0 purchases) := by
        rcases List.mem_cons.mp hlv with h | h
        · exact h
        · simp at h
      rw [hlv'] at he
      have hseednodup : (keys (seedFrom [] 0 purchases)).Nodup :=
        keys_nodup_seedFrom purchases 0 [] List.nodup_nil
      have hlk := lookup_of_mem_nodup hseednodup he
      rw [seed_char purchases hn e.1] at hlk
      by_cases hc : e.1.length = 1 ∧ occList purchases e.1 ≠ []
      · rw [if_pos hc] at hlk
        exact (Option.some.inj hlk).symm
      · rw [if_neg hc] at hlk
        exact absurd hlk (by simp)
    rcases List.mem_cons.mp hst with rfl | hst
    · exact goodTable_vals (seed_pruned_good purchases sigma hn) lv hlv e he
    · exact trace_exact purchases mcs sigma (m - 2) 1 _ (le_refl 1)
        (seed_pruned_good purchases sigma hn) st hst lv hlv e he

/-- Witness for C10 on the run over `[[1,2]]` with `sigma = 1`:
the seed state's entry for item 1. -/
theorem claim_C10_witness :
    List.Chain' (· < ·) ([0] : List ℕ) ∧ ([0] : List ℕ).Nodup :=
  claim_C10 [[1, 2]] 5 1 (by decide) (by decide)
    [(1, [([1], [0]), ([2], [0])])] (by decide)
    (1, [([1], [0]), ([2], [0])]) (by decide) ([1], [0]) (by decide)

end Cooccur
